import Mathlib

/-!
Verification of the battery-data-toolkit core against its specification.

This file shallowly embeds the parts of the `battdat` package that the
claims concern:

* `battdat/postprocess/integral.py` — `CapacityPerCycle._summarize` and
  `StateOfCharge` (cycle-level and row-level trapezoidal integration);
* `battdat/postprocess/tagging.py` — `_determine_steps` (run-length step
  indices) and the sub-segmentation step of `AddMethod.enhance`;
* `battdat/schemas/column.py` — `ColumnSchema` (JSON round trip, dataframe
  validation, `__contains__`/`__getitem__`).

Machine floats are modelled by `ℚ` (the claims under study are exact
algebraic/relational statements about the arithmetic the code performs, not
about rounding).  Pandas dataframes are modelled by lists of rows or
association lists of named columns; `NaN`-initialised output columns are
modelled with `Option`.  Python exceptions are modelled with `Except`.
-/

namespace BattDat

/-! ## `StateOfCharge.coulombic_efficiency` (integral.py lines 141-156)

The property setter validates the efficiency; `__init__` assigns through the
setter.  On a failed validation the Python exception propagates before the
assignment `self._ce = value` runs, so the previously stored value is kept;
in this state-passing embedding that is expressed by the setter returning
`.error` (no new state is produced, the old `StateOfCharge` value stands). -/

/-- The mutable state of a `StateOfCharge` object: its stored `_ce`. -/
structure StateOfCharge where
  _ce : ℚ
deriving DecidableEq

/-- Guard of the `coulombic_efficiency` setter:
`if value < 0 or value > 1: raise ValueError(...)`. -/
def ceCheck (value : ℚ) : Except String ℚ :=
  if value < 0 ∨ value > 1 then
    .error "Coulombic efficiency must be between 0 and 1"
  else
    .ok value

/-- `coulombic_efficiency.setter`: validate, then store into `_ce`. -/
def setCE (_s : StateOfCharge) (value : ℚ) : Except String StateOfCharge := do
  let ce ← ceCheck value
  return { _ce := ce }

/-- `StateOfCharge.__init__`, which assigns `self.coulombic_efficiency`
through the property setter. -/
def initStateOfCharge (coulombic_efficiency : ℚ) : Except String StateOfCharge := do
  let ce ← ceCheck coulombic_efficiency
  return { _ce := ce }

/-! ## `ColumnSchema` (`battdat/schemas/column.py`) -/

/-- `DataType` enumeration of column kinds. -/
inductive DataType where
  | FLOAT
  | INTEGER
  | CONTROL
  | STATE
  | OTHER
deriving DecidableEq

/-- `ColumnInfo`: description of one column of a schema. -/
structure ColumnInfo where
  required : Bool := false
  type : DataType := .OTHER
  description : String
  units : Option String := none
  monotonic : Bool := false
deriving DecidableEq

/-- A `ColumnSchema` object: the statically declared `ColumnInfo` fields of
the concrete subclass (`model_fields` minus `extra_columns`, in declaration
order) together with the `extra_columns` mapping.  Both are association
lists keyed by column name, mirroring Python's insertion-ordered dicts. -/
structure Schema where
  fields : List (String × ColumnInfo)
  extra_columns : List (String × ColumnInfo)
deriving DecidableEq

/-- Python dict assignment `d[k] = v`: replace the value in place if the key
exists, otherwise append the pair. -/
def dictInsert (l : List (String × ColumnInfo)) (k : String) (v : ColumnInfo) :
    List (String × ColumnInfo) :=
  if l.any (fun p => p.1 = k) then
    l.map (fun p => if p.1 = k then (k, v) else p)
  else
    l ++ [(k, v)]

/-- Python `dict.update`: keys already present keep their position but take
the new value; new keys are appended in order. -/
def dictUpdate (l m : List (String × ColumnInfo)) : List (String × ColumnInfo) :=
  (l.map fun p =>
    match m.find? (fun q => q.1 = p.1) with
    | some q => (p.1, q.2)
    | none => p) ++
  m.filter (fun q => ¬ l.any (fun p => p.1 = q.1))

/-- `ColumnSchema.columns` property:
`specified = {field → getattr}` then `specified.update(extra_columns)`. -/
def Schema.columns (s : Schema) : List (String × ColumnInfo) :=
  dictUpdate s.fields s.extra_columns

/-- `ColumnSchema.column_names` property: declared field names followed by
the extra-column names (duplicates are not removed, as in the source). -/
def Schema.column_names (s : Schema) : List String :=
  s.fields.map Prod.fst ++ s.extra_columns.map Prod.fst

/-- `ColumnSchema.add_column`: build a `ColumnInfo` and store it in
`extra_columns` under `name`. -/
def Schema.add_column (s : Schema) (name description : String)
    (data_type : DataType) (required : Bool)
    (units : Option String) (monotonic : Bool) : Schema :=
  let new_col : ColumnInfo :=
    { description := description, required := required, units := units,
      monotonic := monotonic, type := data_type }
  { s with extra_columns := dictInsert s.extra_columns name new_col }

/-! ### JSON serialisation (round trip of `model_dump_json`/`from_json`) -/

/-- A value of the JSON object produced by `model_dump_json`: each declared
field serialises to a `ColumnInfo` object, while the `extra_columns` field
serialises to a name → `ColumnInfo` object. -/
inductive JsonVal where
  | info : ColumnInfo → JsonVal
  | dict : List (String × ColumnInfo) → JsonVal
deriving DecidableEq

/-- The top-level JSON object: an insertion-ordered mapping. -/
def Json : Type := List (String × JsonVal)

/-- `model_dump_json`: one key per pydantic model field.  `extra_columns`
is declared on the base class, so it precedes the subclass columns. -/
def Schema.to_json (s : Schema) : Json :=
  ("extra_columns", JsonVal.dict s.extra_columns) ::
    s.fields.map (fun p => (p.1, JsonVal.info p.2))

/-- `dict((k, (ColumnInfo, ColumnInfo.model_validate(v))) for k, v in
data.items())`: every remaining value must parse as a `ColumnInfo`
(`model_validate` raises otherwise, modelled by `none`). -/
def parseFields : List (String × JsonVal) → Option (List (String × ColumnInfo))
  | [] => some []
  | (n, JsonVal.info i) :: rest =>
    (parseFields rest).map (fun tl => (n, i) :: tl)
  | (_, JsonVal.dict _) :: _ => none

/-- `ColumnSchema.from_json`: pop `extra_columns` from the parsed object,
treat every remaining key as a declared column, and build a fresh model. -/
def from_json (j : Json) : Option Schema :=
  let rest := j.filter (fun p => p.1 ≠ "extra_columns")
  match j.find? (fun p => p.1 = "extra_columns") with
  | some (_, JsonVal.dict d) =>
    (parseFields rest).map (fun fields => { fields := fields, extra_columns := d })
  | some (_, JsonVal.info _) => none
  | none =>
    (parseFields rest).map (fun fields => { fields := fields, extra_columns := [] })

/-! ### `ColumnSchema.validate_dataframe` (column.py lines 144-198) -/

/-- A cell of a dataframe column: numeric or string valued. -/
inductive CellV where
  | num : ℚ → CellV
  | str : String → CellV
deriving DecidableEq

/-- One dataframe column: its numpy dtype kind character (`'f'`, `'c'`,
`'i'`, `'u'`, `'O'`, ...) and its values. -/
structure DFColumn where
  kind : Char
  values : List CellV
deriving DecidableEq

/-- A dataframe, as the ordered association of column name to column. -/
def DataFrame : Type := List (String × DFColumn)

/-- Structured form of the `ValueError`s raised by `validate_dataframe`;
each constructor records the column name(s) carried in the message text. -/
inductive VErr where
  | extraCols : List String → VErr
  | missingRequired : String → VErr
  | notFloat : String → VErr
  | notInteger : String → VErr
  | badEnum : String → VErr
  | notMonotonic : String → VErr
deriving DecidableEq

/-- The string values of `list(ChargingState)`. -/
def chargingStateValues : List String :=
  ["charging", "resting", "discharging", "unknown"]

/-- The string values of `list(ControlMethod)`. -/
def controlMethodValues : List String :=
  ["short_rest", "rest", "short_nonrest", "pulse", "constant_current",
   "constant_voltage", "constant_power", "unknown", "other"]

/-- Membership test of one cell in a string enum (`Series.isin(list(enum))`);
a `str`-valued `Enum` member compares equal to its plain string value. -/
def cellIsin (enumVals : List String) : CellV → Bool
  | .str s => enumVals.contains s
  | .num _ => false

/-- Comparison `y >= x` used by the monotonicity check.  Python compares
numbers with numbers and strings with strings; comparing a number against a
string raises `TypeError`, which (like any unordered pair) is modelled as
the comparison failing. -/
def cellLe : CellV → CellV → Bool
  | .num a, .num b => a ≤ b
  | .str a, .str b => a ≤ b
  | _, _ => false

/-- Adjacent pairs `zip(col, col.iloc[1:])` of a list. -/
def adjacentPairs {α : Type} : List α → List (α × α)
  | a :: b :: rest => (a, b) :: adjacentPairs (b :: rest)
  | _ => []

/-- The body of the `for column, col_schema in self.columns.items()` loop
for a single column: missing-column check, dtype/enum check, monotonicity
check, in source order.  `DataType.OTHER` columns `continue` before the
monotonicity check. -/
def checkColumn (df : DataFrame) (column : String) (col_schema : ColumnInfo) :
    Except VErr Unit :=
  match df.find? (fun p => p.1 = column) with
  | none =>
    if col_schema.required then .error (.missingRequired column) else .ok ()
  | some (_, col) => do
    match col_schema.type with
    | .FLOAT =>
      if ¬ (col.kind = 'f' ∨ col.kind = 'c') then throw (.notFloat column)
    | .INTEGER =>
      if ¬ (col.kind = 'i' ∨ col.kind = 'u') then throw (.notInteger column)
    | .CONTROL =>
      if (col.values.filter (fun v => ¬ cellIsin controlMethodValues v)) ≠ [] then
        throw (.badEnum column)
    | .STATE =>
      if (col.values.filter (fun v => ¬ cellIsin chargingStateValues v)) ≠ [] then
        throw (.badEnum column)
    | .OTHER => return ()  -- `continue`: skip the monotonicity check
    if col_schema.monotonic then
      if ¬ (adjacentPairs col.values).all (fun p => cellLe p.1 p.2) then
        throw (.notMonotonic column)

instance : DecidableEq (Except VErr Unit) := fun a b =>
  match a, b with
  | .ok _, .ok _ => isTrue rfl
  | .error e, .error f =>
    if h : e = f then isTrue (by rw [h]) else
      isFalse (fun hh => h (by injection hh))
  | .ok _, .error _ => isFalse (fun h => Except.noConfusion h)
  | .error _, .ok _ => isFalse (fun h => Except.noConfusion h)

/-- Sequential check of every schema column, stopping at the first raise. -/
def checkColumns (df : DataFrame) : List (String × ColumnInfo) → Except VErr Unit
  | [] => .ok ()
  | (n, i) :: rest => do
    checkColumn df n i
    checkColumns df rest

/-- The table columns that appear in neither the declared fields nor
`extra_columns` (`set(data_columns).difference(self.column_names)`;
the Python set is modelled by the list of offending names in table order). -/
def extraColsOf (s : Schema) (df : DataFrame) : List String :=
  (df.map Prod.fst).filter (fun n => ¬ s.column_names.contains n)

/-- `ColumnSchema.validate_dataframe`: optional extra-column check followed
by the per-column checks. -/
def validate_dataframe (s : Schema) (df : DataFrame) (allow_extra_columns : Bool) :
    Except VErr Unit := do
  if ¬ allow_extra_columns then
    if extraColsOf s df ≠ [] then
      throw (.extraCols (extraColsOf s df))
  checkColumns df s.columns

/-! ### `ColumnSchema.__contains__` / `__getitem__` (column.py lines 81-92) -/

/-- Result of `getattr(self, item)` in the embedding: either a genuine
`ColumnInfo` (a declared column field or an extra column) or some other
attribute of the object — a bound method, a property value, or the
`extra_columns` dict — which is never a `ColumnInfo`. -/
inductive AttrVal where
  | colinfo : ColumnInfo → AttrVal
  | attr : String → AttrVal
deriving DecidableEq

/-- The non-field class attributes of `ColumnSchema` visible to `hasattr`:
the methods and properties defined in the source (pydantic adds further
machinery attributes; this list is the subset the claim is about). -/
def classAttrs : List String :=
  ["columns", "column_names", "add_column", "validate_dataframe", "from_json"]

/-- `hasattr(self, item)`: true for declared fields, for the
`extra_columns` field itself, and for class attributes. -/
def Schema.hasattr (s : Schema) (item : String) : Bool :=
  s.fields.any (fun p => p.1 = item) ∨ item = "extra_columns" ∨ classAttrs.contains item

/-- `ColumnSchema.__contains__`:
`item in self.extra_columns or hasattr(self, item)`. -/
def Schema.mem (s : Schema) (item : String) : Bool :=
  s.extra_columns.any (fun p => p.1 = item) ∨ s.hasattr item

/-- `ColumnSchema.__getitem__`: extra columns first, then `getattr`
fallback, else `KeyError` (modelled by `none`). -/
def Schema.getitem (s : Schema) (item : String) : Option AttrVal :=
  match s.extra_columns.find? (fun p => p.1 = item) with
  | some p => some (.colinfo p.2)
  | none =>
    if s.hasattr item then
      match s.fields.find? (fun p => p.1 = item) with
      | some p => some (.colinfo p.2)
      | none => some (.attr item)
    else
      none

/-! ## `_determine_steps` (tagging.py lines 175-199)

The input table is modelled by the two columns the function touches: the
`cycle_number` column and the monitored source column (of an arbitrary
decidable type `V`), as a list of `(cycle_number, value)` rows. -/

/-- The change flags of `df[column].ne(df[column].shift(1, fill_value=first))`
for the tail of the column, given the previous value. -/
def changeFlags {V : Type} [DecidableEq V] : V → List V → List Bool
  | _, [] => []
  | prev, v :: vs => decide (v ≠ prev) :: changeFlags v vs

/-- The full change series; row 0 is compared against itself (the shift
fill value is the first element), hence always `false`. -/
def changes {V : Type} [DecidableEq V] (vals : List V) : List Bool :=
  match vals with
  | [] => []
  | v :: _ => changeFlags v vals

/-- `Series.cumsum` of a boolean series, with a running accumulator. -/
def cumsumAux (acc : ℕ) : List Bool → List ℕ
  | [] => []
  | b :: bs =>
    let acc' := acc + (if b then 1 else 0)
    acc' :: cumsumAux acc' bs

/-- Minimum of a list of naturals (`Series.min`, on nonempty groups). -/
def listMinN : List ℕ → ℕ
  | [] => 0
  | x :: xs => xs.foldl min x

/-- Step 1 of `_determine_steps`: `change.cumsum()`, the run index over
the whole table. -/
def stepOut0 {V : Type} [DecidableEq V] (rows : List (ℕ × V)) : List ℕ :=
  cumsumAux 0 (changes (rows.map Prod.snd))

/-- The `(cycle_number, output)` pairs the group-wise adjustment reads. -/
def stepZ {V : Type} [DecidableEq V] (rows : List (ℕ × V)) : List (ℕ × ℕ) :=
  (rows.map Prod.fst).zip (stepOut0 rows)

/-- `cycle[output_col].min()`: the group minimum of the run index over the
rows of cycle `c`. -/
def cycGroupMin {V : Type} [DecidableEq V] (rows : List (ℕ × V)) (c : ℕ) : ℕ :=
  listMinN (((stepZ rows).filter (fun q => q.1 = c)).map Prod.snd)

/-- `_determine_steps`: cumulative count of changes, then, for every
`cycle_number` group, subtraction of the group's minimum. -/
def stepIndex {V : Type} [DecidableEq V] (rows : List (ℕ × V)) : List ℕ :=
  (stepZ rows).map (fun p => p.2 - cycGroupMin rows p.1)

/-! ## Sub-segmentation of `AddMethod.enhance` (tagging.py lines 103-130)

Only the label-assembly logic matters for the claim: `find_peaks` (scipy)
returns some set of interior indices of an array of length `n`, hence a
list of naturals `< n`; the per-segment classification (via floating-point
standard deviations) is abstracted by an arbitrary labelling function
`lab`, since the claim is only about the number of produced labels. -/

/-- `sorted(set(current_peaks).union(set(voltage_peaks)))`. -/
def sortDedup (l : List ℕ) : List ℕ :=
  List.insertionSort (· ≤ ·) l.dedup

/-- `extrema = [0] + sorted(set(ps).union(set(qs))) + [len(voltage)]`. -/
def segExtrema (n : ℕ) (ps qs : List ℕ) : List ℕ :=
  0 :: (sortDedup (ps ++ qs) ++ [n])

/-- The `methods` list assembled segment by segment: for each adjacent pair
`(low, high)` of extrema, `len(np.arange(low, high))` copies of the label
computed for that segment. -/
def buildMethods {M : Type} (n : ℕ) (ps qs : List ℕ) (lab : ℕ → ℕ → M) : List M :=
  (adjacentPairs (segExtrema n ps qs)).flatMap
    (fun p => List.replicate (p.2 - p.1) (lab p.1 p.2))

/-! ## Cycle integration (`battdat/postprocess/integral.py`)

A raw-data row carries the four columns the integrators read.  Times,
currents and voltages are rationals. -/

/-- One row of the raw-data table. -/
structure Row where
  cycle_number : ℕ
  test_time : ℚ
  current : ℚ
  voltage : ℚ
deriving DecidableEq

/-- Whether row `i` survives `drop_duplicates('cycle_number', keep='first')`:
its cycle number does not occur in any earlier row. -/
def isStart (tbl : List Row) (i : ℕ) : Bool :=
  match tbl[i]? with
  | none => false
  | some r => ¬ (tbl.take i).any (fun r' => r'.cycle_number = r.cycle_number)

/-- `start_inds`: the positional indices of the first row of each cycle. -/
def startInds (tbl : List Row) : List ℕ :=
  (List.range tbl.length).filter (fun i => isStart tbl i)

/-- `zip_longest(start_inds, start_inds[1:] + 1, fillvalue=fill)`: the
`(start, stop)` pair of each cycle; the second sequence is one element
short and is padded with the fill value. -/
def cycleBounds (s : List ℕ) (fill : ℕ) : List (ℕ × ℕ) :=
  s.zip (s.tail.map (· + 1) ++ [fill])

/-- `df.iloc[s:e]`: drop `s` rows, keep at most `e - s`. -/
def slice {α : Type} (l : List α) (s e : ℕ) : List α :=
  (l.drop s).take (e - s)

/-- Increments of the trapezoid rule, accumulated from `acc`, given the
previous `(t, f)` sample. -/
def trapzAux : ℚ × ℚ → List (ℚ × ℚ) → ℚ → List ℚ
  | _, [], _ => []
  | p, q :: rest, acc =>
    let acc' := acc + (q.1 - p.1) * (q.2 + p.2) / 2
    acc' :: trapzAux q rest acc'

/-- `scipy.integrate.cumulative_trapezoid(f, x=t)` (no `initial`): one
entry per sample after the first. -/
def cumtrapz (pts : List (ℚ × ℚ)) : List ℚ :=
  match pts with
  | [] => []
  | p :: rest => trapzAux p rest 0

/-- `cumulative_trapezoid(..., initial=0)`: a leading exact zero.
(The integrators only apply this to nonempty sample lists.) -/
def cumtrapz0 (pts : List (ℚ × ℚ)) : List ℚ :=
  0 :: cumtrapz pts

/-- `np.max` of a nonempty array (the default is never exposed: callers
guard against empty arrays, which would raise in numpy). -/
def listMaxD : List ℚ → ℚ
  | [] => 0
  | x :: xs => xs.foldl max x

/-- `np.min` of a nonempty array. -/
def listMinD : List ℚ → ℚ
  | [] => 0
  | x :: xs => xs.foldl min x

/-- The five summary fields `CapacityPerCycle._summarize` writes for one
processed cycle. -/
structure CycleSummary where
  energy_charge : ℚ
  energy_discharge : ℚ
  capacity_charge : ℚ
  capacity_discharge : ℚ
  max_cycled_capacity : ℚ
deriving DecidableEq

/-- Lines 97-123 of integral.py: given the cycle's `capacity_change` and
`energy_change` arrays (in amp-seconds / joules), estimate the starting
state and write the five summary fields (converted by `/3600`).  `none`
models the `ValueError` numpy raises on `.max()` of an empty array; the
`np.isclose` ambiguity warning changes no value and is not modelled. -/
def summarizeCycle (capacity_change energy_change : List ℚ) : Option CycleSummary :=
  match capacity_change, energy_change with
  | [], _ => none
  | _, [] => none
  | _, _ =>
    let max_charge := listMaxD capacity_change
    let max_discharge := - listMinD capacity_change
    let max_cycled := (max_charge + max_discharge) / 3600
    let last_cap := capacity_change.getLast?.getD 0
    let last_eng := energy_change.getLast?.getD 0
    if max_charge < max_discharge then
      -- starts_charged
      let discharge_cap := max_discharge
      let charge_cap := last_cap + max_discharge
      let discharge_eng := - listMinD energy_change
      let charge_eng := last_eng + discharge_eng
      some { energy_charge := charge_eng / 3600,
             energy_discharge := discharge_eng / 3600,
             capacity_charge := charge_cap / 3600,
             capacity_discharge := discharge_cap / 3600,
             max_cycled_capacity := max_cycled }
    else
      let charge_cap := max_charge
      let discharge_cap := max_charge - last_cap
      let charge_eng := listMaxD energy_change
      let discharge_eng := charge_eng - last_eng
      some { energy_charge := charge_eng / 3600,
             energy_discharge := discharge_eng / 3600,
             capacity_charge := charge_cap / 3600,
             capacity_discharge := discharge_cap / 3600,
             max_cycled_capacity := max_cycled }

/-- The rows `raw_data.iloc[start_ind:stop_ind]` of cycle `k` as seen by
`CapacityPerCycle._summarize` (fill value `len(raw_data)`): the cycle's own
rows plus, when a later cycle follows, the first row of the next cycle. -/
def cycleSubset (tbl : List Row) (k : ℕ) : List Row :=
  match (cycleBounds (startInds tbl) tbl.length)[k]? with
  | some (s, e) => slice tbl s e
  | none => []

/-- The capacity integrand samples of a row list. -/
def capPts (rows : List Row) : List (ℚ × ℚ) :=
  rows.map (fun r => (r.test_time, r.current))

/-- The energy integrand samples (`current * voltage`). -/
def engPts (rows : List Row) : List (ℚ × ℚ) :=
  rows.map (fun r => (r.test_time, r.current * r.voltage))

/-- `CapacityPerCycle._summarize` restricted to cycle `k`.  `stored` models
the presence and contents of the `cycled_charge`/`cycled_energy` columns
(in A-hr / W-hr; both present after `StateOfCharge.enhance`, both absent
otherwise); the reuse path rescales them by 3600, the recompute path
integrates directly.  `none` is a skipped cycle (its summary row keeps the
`np.nan` initialisation) or an out-of-range `k`. -/
def summary (reuse : Bool) (stored : Option (List ℚ × List ℚ))
    (tbl : List Row) (k : ℕ) : Option CycleSummary :=
  match (cycleBounds (startInds tbl) tbl.length)[k]? with
  | none => none
  | some (st, en) =>
    let sub := slice tbl st en
    if sub.length < 3 then
      none
    else
      match reuse, stored with
      | true, some (ch, eg) =>
        summarizeCycle ((slice ch st en).map (· * 3600))
                       ((slice eg st en).map (· * 3600))
      | _, _ =>
        summarizeCycle (cumtrapz (capPts sub)) (cumtrapz (engPts sub))

/-- Well-formedness of the stored columns: dataframe columns always have
exactly one entry per row. -/
def storedWF : Option (List ℚ × List ℚ) → List Row → Prop
  | none, _ => True
  | some (c, e), tbl => c.length = tbl.length ∧ e.length = tbl.length

/-! ### `StateOfCharge.enhance` (integral.py lines 175-197) -/

/-- `data.loc[positions, col] = vals`: overwrite the entries of `arr`
starting at position `start` with `vals` (the written positions always lie
inside the column). -/
def writeRange : List (Option ℚ) → ℕ → List ℚ → List (Option ℚ)
  | arr, _, [] => arr
  | [], _, _ => []
  | _ :: arr, 0, v :: vs => some v :: writeRange arr 0 vs
  | a :: arr, n + 1, vs => a :: writeRange arr n vs

/-- One output column of `StateOfCharge.enhance` for the integrand `f`:
the column starts as all-`NaN` (`none`), then each cycle's pass writes the
`initial=0` cumulative trapezoid of its subset (converted by `/3600`).
Note the fill value `len + 1` and that each pass's subset reaches into the
first row of the next cycle, which the next pass overwrites. -/
def enhanceCol (tbl : List Row) (f : Row → ℚ) : List (Option ℚ) :=
  (cycleBounds (startInds tbl) (tbl.length + 1)).foldl
    (fun arr se =>
      writeRange arr se.1
        ((cumtrapz0 ((slice tbl se.1 se.2).map (fun r => (r.test_time, f r)))).map
          (· / 3600)))
    (List.replicate tbl.length none)

/-- The `cycled_charge` column after `enhance` (every row is written, so
the `NaN` default is never exposed; see `enhanceCol_getElem`). -/
def enhancedCharge (tbl : List Row) : List ℚ :=
  (enhanceCol tbl (fun r => r.current)).map (fun o => o.getD 0)

/-- The `cycled_energy` column after `enhance`. -/
def enhancedEnergy (tbl : List Row) : List ℚ :=
  (enhanceCol tbl (fun r => r.current * r.voltage)).map (fun o => o.getD 0)

/-- `_get_CE_adjusted_curr` applied to one row: charging current (positive
by the package's sign convention) is scaled by the Coulombic efficiency. -/
def ceAdjust (ce : ℚ) (r : Row) : ℚ :=
  if r.current > 0 then r.current * ce else r.current

/-- The `CE_charge` column after `enhance`. -/
def enhancedCE (ce : ℚ) (tbl : List Row) : List ℚ :=
  (enhanceCol tbl (ceAdjust ce)).map (fun o => o.getD 0)

/-- The first row index of cycle `k + 1`, or the table length for the last
cycle: the exclusive upper end of the rows owned by cycle `k`. -/
def nextStart (tbl : List Row) (k : ℕ) : ℕ :=
  if h : k + 1 < (startInds tbl).length then
    (startInds tbl).get ⟨k + 1, h⟩
  else
    tbl.length

/-- The values pass `k` of `enhanceCol` writes (already over 3600): the
`initial=0` cumulative trapezoid of its `(start, stop)` subset. -/
def passCol (tbl : List Row) (f : Row → ℚ) (k : ℕ) : List ℚ :=
  let se := ((cycleBounds (startInds tbl) (tbl.length + 1))[k]?).getD (0, 0)
  (cumtrapz0 ((slice tbl se.1 se.2).map (fun r => (r.test_time, f r)))).map (· / 3600)

/-- Conditions under which a cycle's recomputed integral array survives the
reuse path unchanged: its range spans 0, and — when a later cycle exists,
so that `StateOfCharge.enhance` overwrites the end-cap row with the next
cycle's initial 0 — the integral returns to exactly 0 at the end cap. -/
def reuseSafe (tbl : List Row) (k : ℕ) (arr : List ℚ) : Prop :=
  0 ≤ listMaxD arr ∧ listMinD arr ≤ 0 ∧
  (k + 1 < (startInds tbl).length → arr.getLast? = some 0)

/-! ### Concrete tables for the counterexamples and witnesses -/

/-- Three-row single-cycle table with zero net charge transfer: current
ramps from -2 A to 2 A over two seconds. -/
def tblC1 : List Row :=
  [⟨0, 0, -2, 1⟩, ⟨0, 1, 0, 1⟩, ⟨0, 2, 2, 1⟩]

/-- Two cycles: three rows of +1 A followed by three rows of -1 A.  The
charge integral of cycle 0 does not return to zero at its end-cap row. -/
def tblC3 : List Row :=
  [⟨0, 0, 1, 1⟩, ⟨0, 1, 1, 1⟩, ⟨0, 2, 1, 1⟩,
   ⟨1, 3, -1, 1⟩, ⟨1, 4, -1, 1⟩, ⟨1, 5, -1, 1⟩]

/-- Two cycles: each cycle's charge/energy integral returns to zero at its
end-cap row (cycle 0) or spans zero (final cycle 1). -/
def tblC3w : List Row :=
  [⟨0, 0, 1, 1⟩, ⟨0, 1, 1, 1⟩, ⟨0, 2, -1, 1⟩,
   ⟨1, 3, -1, 1⟩, ⟨1, 4, 1, 1⟩, ⟨1, 5, 1, 1⟩]

/-- A two-row cycle 0 followed by a three-row cycle 1. -/
def tblC4 : List Row :=
  [⟨0, 0, 1, 1⟩, ⟨0, 1, 1, 1⟩,
   ⟨1, 2, 1, 1⟩, ⟨1, 3, 1, 1⟩, ⟨1, 4, 1, 1⟩]

/-! ## Theorems -/

/-- C9: setting `coulombic_efficiency` (also from `__init__`) to `v` with
`v < 0` or `v > 1` raises `ValueError` — so the previously stored value is
left unchanged, no new state being produced — while every `v ∈ [0,1]` is
stored as given, and construction with the default `1.0` succeeds. -/
theorem coulombic_efficiency_setter_spec (s : StateOfCharge) (v : ℚ) :
    ((v < 0 ∨ 1 < v) →
      setCE s v = .error "Coulombic efficiency must be between 0 and 1") ∧
    (0 ≤ v → v ≤ 1 → setCE s v = .ok ⟨v⟩) ∧
    initStateOfCharge 1 = .ok ⟨1⟩ := by
  refine ⟨fun h => ?_, fun h0 h1 => ?_, ?_⟩
  · simp only [setCE, ceCheck, gt_iff_lt]
    rw [if_pos h]
    rfl
  · have h : ¬ (v < 0 ∨ 1 < v) := by
      push_neg
      exact ⟨h0, h1⟩
    simp only [setCE, ceCheck, gt_iff_lt]
    rw [if_neg h]
    rfl
  · rfl

/-- Witness for C9 at `v = 2`, `v = 1/2` and the default `1`. -/
theorem coulombic_efficiency_setter_spec_witness :
    setCE ⟨1/2⟩ 2 = .error "Coulombic efficiency must be between 0 and 1" ∧
    setCE ⟨1/2⟩ (1/2) = .ok ⟨1/2⟩ ∧
    initStateOfCharge 1 = .ok ⟨1⟩ :=
  ⟨(coulombic_efficiency_setter_spec ⟨1/2⟩ 2).1 (Or.inr (by norm_num)),
   (coulombic_efficiency_setter_spec ⟨1/2⟩ (1/2)).2.1 (by norm_num) (by norm_num),
   (coulombic_efficiency_setter_spec ⟨1/2⟩ 1).2.2⟩

/-- C10: for the name `"columns"` — a class attribute denoting no column of
the schema — `__contains__` returns `True` through its `hasattr` fallback,
and `__getitem__` then returns the property's value, a non-`ColumnInfo`
object, instead of raising `KeyError`. -/
theorem contains_hasattr_fallback (s : Schema)
    (h1 : ∀ p ∈ s.extra_columns, p.1 ≠ "columns")
    (h2 : ∀ p ∈ s.fields, p.1 ≠ "columns") :
    s.mem "columns" = true ∧ s.getitem "columns" = some (.attr "columns") := by
  have hx : s.extra_columns.find? (fun p => p.1 = "columns") = none := by
    rw [List.find?_eq_none]
    intro p hp
    simpa using h1 p hp
  have hf : s.fields.find? (fun p => p.1 = "columns") = none := by
    rw [List.find?_eq_none]
    intro p hp
    simpa using h2 p hp
  have hh : s.hasattr "columns" = true := by
    simp [Schema.hasattr, classAttrs]
  constructor
  · simp [Schema.mem, hh]
  · simp [Schema.getitem, hx, hf, hh]

/-- Witness for C10 on a schema with one declared field and one extra
column, neither named `"columns"`. -/
theorem contains_hasattr_fallback_witness :
    (Schema.mk [("test_time", ⟨true, .FLOAT, "t", some "s", true⟩)]
      [("extra", ⟨false, .OTHER, "e", none, false⟩)]).mem "columns" = true ∧
    (Schema.mk [("test_time", ⟨true, .FLOAT, "t", some "s", true⟩)]
      [("extra", ⟨false, .OTHER, "e", none, false⟩)]).getitem "columns"
      = some (.attr "columns") :=
  contains_hasattr_fallback _ (by decide) (by decide)

/-- The declared-columns part of the JSON object parses back to exactly the
original field list when no field is named `extra_columns`. -/
theorem parseFields_roundtrip (l : List (String × ColumnInfo))
    (h : ∀ p ∈ l, p.1 ≠ "extra_columns") :
    parseFields ((l.map (fun p => (p.1, JsonVal.info p.2))).filter
      (fun p => decide (p.1 ≠ "extra_columns"))) = some l := by
  induction l with
  | nil => rfl
  | cons hd tl ih =>
    have hhd : hd.1 ≠ "extra_columns" := h hd (List.mem_cons_self hd tl)
    have htl : ∀ p ∈ tl, p.1 ≠ "extra_columns" :=
      fun p hp => h p (List.mem_cons_of_mem hd hp)
    rw [List.map_cons, List.filter_cons_of_pos (by simpa using hhd)]
    rw [parseFields, ih htl]
    rfl

/-- C5: for every `ColumnSchema` — including one extended at runtime with
arbitrary `extra_columns` through `add_column` — parsing
`from_json(to_json(schema))` succeeds and yields a schema with identical
column names and identical per-column `ColumnInfo` (hence identical kinds,
required flags, monotonic flags and units), with no need for the original
concrete subclass.  The hypothesis rules out a declared column literally
named `extra_columns`, which pydantic forbids (it would shadow the base
field). -/
theorem from_json_to_json_roundtrip (s : Schema)
    (h : ∀ p ∈ s.fields, p.1 ≠ "extra_columns") :
    ∃ s', from_json s.to_json = some s' ∧
      s'.column_names = s.column_names ∧ s'.columns = s.columns := by
  refine ⟨⟨s.fields, s.extra_columns⟩, ?_, rfl, rfl⟩
  unfold from_json Schema.to_json
  rw [List.find?_cons_of_pos _ (by simp)]
  rw [List.filter_cons_of_neg (by simp)]
  simp only []
  rw [parseFields_roundtrip s.fields h]
  rfl

/-- Witness for C5 on a schema with one declared column, extended at
runtime with an extra column through `add_column`. -/
theorem from_json_to_json_roundtrip_witness :
    ∃ s', from_json ((Schema.mk [("test_time", ⟨true, .FLOAT, "t", some "s", true⟩)]
        []).add_column "temp" "temperature" .FLOAT false (some "C") false).to_json
      = some s' ∧
      s'.column_names = ((Schema.mk [("test_time", ⟨true, .FLOAT, "t", some "s", true⟩)]
        []).add_column "temp" "temperature" .FLOAT false (some "C") false).column_names ∧
      s'.columns = ((Schema.mk [("test_time", ⟨true, .FLOAT, "t", some "s", true⟩)]
        []).add_column "temp" "temperature" .FLOAT false (some "C") false).columns :=
  from_json_to_json_roundtrip _ (by decide)

/-- A `(· ≤ ·)` chain starting at `a` ends at a value at least `a`. -/
theorem chain_le_getLast (a : ℕ) (l : List ℕ) (h : List.Chain' (· ≤ ·) (a :: l)) :
    a ≤ (a :: l).getLast (List.cons_ne_nil a l) := by
  induction l generalizing a with
  | nil => simp
  | cons b l ih =>
    rw [List.getLast_cons (List.cons_ne_nil b l)]
    exact le_trans (List.chain'_cons.mp h).1 (ih b (List.chain'_cons.mp h).2)

/-- Telescoping: over a `(· ≤ ·)`-chain, the segment lengths `high - low`
of the adjacent pairs sum to `last - first`. -/
theorem adjacentPairs_telescope (a : ℕ) (l : List ℕ)
    (h : List.Chain' (· ≤ ·) (a :: l)) :
    ((adjacentPairs (a :: l)).map (fun p => p.2 - p.1)).sum
      = (a :: l).getLast (List.cons_ne_nil a l) - a := by
  induction l generalizing a with
  | nil => simp [adjacentPairs]
  | cons b l ih =>
    have hab : a ≤ b := (List.chain'_cons.mp h).1
    have hbl : List.Chain' (· ≤ ·) (b :: l) := (List.chain'_cons.mp h).2
    have hlast : b ≤ (b :: l).getLast (List.cons_ne_nil b l) := chain_le_getLast b l hbl
    rw [List.getLast_cons (List.cons_ne_nil b l)]
    show ((b - a) :: ((adjacentPairs (b :: l)).map (fun p => p.2 - p.1))).sum = _
    rw [List.sum_cons, ih b hbl]
    omega

/-- The extrema list is a `(· ≤ ·)`-chain from `0` to `n` whenever every
peak index is `< n` (as `find_peaks` guarantees on arrays of length `n`). -/
theorem segExtrema_chain (n : ℕ) (ps qs : List ℕ)
    (hp : ∀ p ∈ ps, p < n) (hq : ∀ q ∈ qs, q < n) :
    List.Chain' (· ≤ ·) (segExtrema n ps qs) := by
  have hmem : ∀ x ∈ sortDedup (ps ++ qs), x < n := by
    intro x hx
    have : x ∈ (ps ++ qs).dedup := (List.perm_insertionSort _ _).mem_iff.mp hx
    rcases List.mem_append.mp (List.mem_dedup.mp this) with h | h
    · exact hp x h
    · exact hq x h
  rw [List.chain'_iff_pairwise]
  constructor
  · intro x _
    exact Nat.zero_le x
  · rw [List.pairwise_append]
    refine ⟨(List.sorted_insertionSort _ _), List.pairwise_singleton _ _, ?_⟩
    intro x hx y hy
    rw [List.mem_singleton.mp hy]
    exact le_of_lt (hmem x hx)

/-- C7: the sub-segmentation branch of `AddMethod.enhance` builds exactly
one label per row: for any peak index sets returned by `find_peaks` on the
group's length-`n` derivative arrays (hence indices `< n`) and any
per-segment classification, the concatenated `methods` list has length
exactly `n` — so `assert len(methods) == len(ind)` always holds and the
failure branch is unreachable. -/
theorem method_labels_length {M : Type} (n : ℕ) (ps qs : List ℕ)
    (lab : ℕ → ℕ → M)
    (hp : ∀ p ∈ ps, p < n) (hq : ∀ q ∈ qs, q < n) :
    (buildMethods n ps qs lab).length = n := by
  have hlen : (buildMethods n ps qs lab).length
      = ((adjacentPairs (segExtrema n ps qs)).map (fun p => p.2 - p.1)).sum := by
    unfold buildMethods
    generalize adjacentPairs (segExtrema n ps qs) = l
    induction l with
    | nil => rfl
    | cons hd tl ih => simp [List.flatMap_cons, ih]
  have hchain := segExtrema_chain n ps qs hp hq
  have hlast : (segExtrema n ps qs).getLast (List.cons_ne_nil _ _) = n := by
    show ((0 :: sortDedup (ps ++ qs)) ++ [n]).getLast _ = n
    exact List.getLast_append _
  rw [hlen]
  unfold segExtrema at hchain hlast ⊢
  rw [adjacentPairs_telescope _ _ hchain, hlast]
  omega

/-- Witness for C7 with `n = 7` and peak sets `{2, 5}` and `{3}`. -/
theorem method_labels_length_witness :
    (buildMethods 7 [2, 5] [3] (fun a b => a + b)).length = 7 :=
  method_labels_length 7 [2, 5] [3] (fun a b => a + b) (by decide) (by decide)

/-! ### Lemmas about `_determine_steps` -/

theorem changeFlags_length {V : Type} [DecidableEq V] (prev : V) (l : List V) :
    (changeFlags prev l).length = l.length := by
  induction l generalizing prev with
  | nil => rfl
  | cons v vs ih => simp [changeFlags, ih]

theorem cumsumAux_length (acc : ℕ) (bs : List Bool) :
    (cumsumAux acc bs).length = bs.length := by
  induction bs generalizing acc with
  | nil => rfl
  | cons b bs ih => simp [cumsumAux, ih]

theorem changes_length {V : Type} [DecidableEq V] (vals : List V) :
    (changes vals).length = vals.length := by
  cases vals with
  | nil => rfl
  | cons v vs => simp [changes, changeFlags_length]

/-- Entry `i + 1` of the change series compares value `i + 1` against
value `i` (the `prev` seed only affects entry 0). -/
theorem changeFlags_get_succ {V : Type} [DecidableEq V] (prev : V) (l : List V)
    (i : ℕ) (h : i + 1 < l.length) :
    (changeFlags prev l).get ⟨i + 1, by rw [changeFlags_length]; exact h⟩
      = decide (l.get ⟨i + 1, h⟩ ≠ l.get ⟨i, Nat.lt_of_succ_lt h⟩) := by
  induction l generalizing prev i with
  | nil => simp at h
  | cons v vs ih =>
    cases i with
    | zero =>
      cases vs with
      | nil => simp at h
      | cons w ws => rfl
    | succ j =>
      have hj : j + 1 < vs.length := by simpa using h
      exact ih v j hj

theorem cumsumAux_get_succ (acc : ℕ) (bs : List Bool) (i : ℕ) (h : i + 1 < bs.length) :
    (cumsumAux acc bs).get ⟨i + 1, by rw [cumsumAux_length]; exact h⟩
      = (cumsumAux acc bs).get ⟨i, by rw [cumsumAux_length]; exact Nat.lt_of_succ_lt h⟩
        + (if bs.get ⟨i + 1, h⟩ then 1 else 0) := by
  induction bs generalizing acc i with
  | nil => simp at h
  | cons b bs ih =>
    cases i with
    | zero =>
      cases bs with
      | nil => simp at h
      | cons c cs => rfl
    | succ j =>
      have hj : j + 1 < bs.length := by simpa using h
      exact ih (acc + if b then 1 else 0) j hj

theorem foldl_min_le_self (t : List ℕ) (a : ℕ) : t.foldl min a ≤ a := by
  induction t generalizing a with
  | nil => simp
  | cons b t ih => exact le_trans (ih (min a b)) (min_le_left a b)

theorem foldl_min_le_mem (t : List ℕ) (a x : ℕ) (hx : x ∈ t) : t.foldl min a ≤ x := by
  induction t generalizing a with
  | nil => cases hx
  | cons b t ih =>
    rcases List.mem_cons.mp hx with rfl | hx
    · exact le_trans (foldl_min_le_self t (min a x)) (min_le_right a x)
    · exact ih (min a b) hx

theorem foldl_min_mem (t : List ℕ) (a : ℕ) : t.foldl min a = a ∨ t.foldl min a ∈ t := by
  induction t generalizing a with
  | nil => exact Or.inl rfl
  | cons b t ih =>
    rcases ih (min a b) with h | h
    · rcases min_choice a b with hab | hab
      · exact Or.inl (by rw [List.foldl_cons, h, hab])
      · exact Or.inr (by rw [List.foldl_cons, h, hab]; exact List.mem_cons_self b t)
    · exact Or.inr (List.mem_cons_of_mem b h)

theorem listMinN_le (l : List ℕ) (x : ℕ) (hx : x ∈ l) : listMinN l ≤ x := by
  cases l with
  | nil => cases hx
  | cons a t =>
    rcases List.mem_cons.mp hx with rfl | hx
    · exact foldl_min_le_self t x
    · exact foldl_min_le_mem t a x hx

theorem listMinN_mem (l : List ℕ) (h : l ≠ []) : listMinN l ∈ l := by
  cases l with
  | nil => exact absurd rfl h
  | cons a t =>
    show t.foldl min a ∈ a :: t
    rcases foldl_min_mem t a with h' | h'
    · rw [h']
      exact List.mem_cons_self a t
    · exact List.mem_cons_of_mem a h'

theorem stepOut0_length {V : Type} [DecidableEq V] (rows : List (ℕ × V)) :
    (stepOut0 rows).length = rows.length := by
  rw [stepOut0, cumsumAux_length, changes_length, List.length_map]

theorem stepZ_length {V : Type} [DecidableEq V] (rows : List (ℕ × V)) :
    (stepZ rows).length = rows.length := by
  rw [stepZ, List.length_zip, List.length_map, stepOut0_length, Nat.min_self]

theorem stepIndex_length {V : Type} [DecidableEq V] (rows : List (ℕ × V)) :
    (stepIndex rows).length = rows.length := by
  rw [stepIndex, List.length_map, stepZ_length]

theorem stepZ_get {V : Type} [DecidableEq V] (rows : List (ℕ × V))
    (i : ℕ) (h : i < rows.length) :
    (stepZ rows).get ⟨i, by rw [stepZ_length]; exact h⟩
      = ((rows.get ⟨i, h⟩).1,
         (stepOut0 rows).get ⟨i, by rw [stepOut0_length]; exact h⟩) := by
  simp [stepZ, List.get_eq_getElem, List.getElem_zip, List.getElem_map]

theorem stepIndex_get {V : Type} [DecidableEq V] (rows : List (ℕ × V))
    (i : ℕ) (h : i < rows.length) :
    (stepIndex rows).get ⟨i, by rw [stepIndex_length]; exact h⟩
      = (stepOut0 rows).get ⟨i, by rw [stepOut0_length]; exact h⟩
        - cycGroupMin rows (rows.get ⟨i, h⟩).1 := by
  have hz := stepZ_get rows i h
  simp only [List.get_eq_getElem] at hz ⊢
  simp [stepIndex, List.getElem_map, hz]

/-- The run index of two adjacent rows is unchanged on equal source values
and incremented by exactly 1 on a change. -/
theorem stepOut0_adjacent {V : Type} [DecidableEq V] (rows : List (ℕ × V))
    (i : ℕ) (h : i + 1 < rows.length) :
    (stepOut0 rows).get ⟨i + 1, by rw [stepOut0_length]; exact h⟩
      = (stepOut0 rows).get ⟨i, by rw [stepOut0_length]; exact Nat.lt_of_succ_lt h⟩
        + (if (rows.get ⟨i + 1, h⟩).2 = (rows.get ⟨i, Nat.lt_of_succ_lt h⟩).2
           then 0 else 1) := by
  cases rows with
  | nil => simp at h
  | cons r rs =>
    have hv : i + 1 < ((r :: rs).map Prod.snd).length := by
      rw [List.length_map]; exact h
    have hcs := cumsumAux_get_succ 0 (changes ((r :: rs).map Prod.snd)) i
      (by rw [changes_length]; exact hv)
    have hch : (changes ((r :: rs).map Prod.snd)).get
        ⟨i + 1, by rw [changes_length]; exact hv⟩
        = decide (((r :: rs).map Prod.snd).get ⟨i + 1, hv⟩
            ≠ ((r :: rs).map Prod.snd).get ⟨i, Nat.lt_of_succ_lt hv⟩) := by
      show (changeFlags r.2 ((r :: rs).map Prod.snd)).get _ = _
      exact changeFlags_get_succ r.2 ((r :: rs).map Prod.snd) i hv
    simp only [stepOut0]
    rw [hcs, hch]
    simp only [List.get_eq_getElem, List.getElem_map]
    by_cases hequal : (r :: rs)[i + 1].2 = (r :: rs)[i].2
    · simp [hequal]
    · simp [hequal]

/-- The group minimum never exceeds the run index of a row of the group. -/
theorem cycGroupMin_le {V : Type} [DecidableEq V] (rows : List (ℕ × V))
    (i : ℕ) (h : i < rows.length) :
    cycGroupMin rows (rows.get ⟨i, h⟩).1
      ≤ (stepOut0 rows).get ⟨i, by rw [stepOut0_length]; exact h⟩ := by
  apply listMinN_le
  apply List.mem_map.mpr
  refine ⟨((rows.get ⟨i, h⟩).1,
    (stepOut0 rows).get ⟨i, by rw [stepOut0_length]; exact h⟩), ?_, rfl⟩
  apply List.mem_filter.mpr
  constructor
  · rw [← stepZ_get rows i h]
    exact List.get_mem _ _ _
  · simp

/-- C2 (amended): after `_determine_steps`, adjacent rows *of the same
cycle* with equal source values receive equal indices and adjacent rows of
the same cycle with unequal values receive indices differing by exactly 1,
and within every `cycle_number` group the minimum output index is 0
(attained by some row of the group).  Across a cycle boundary the per-cycle
minimum subtraction breaks the two adjacency properties (see the
counterexample), so the same-cycle restriction is necessary. -/
theorem run_length_index_invariants {V : Type} [DecidableEq V]
    (rows : List (ℕ × V)) :
    (∀ (i : ℕ) (h : i + 1 < rows.length),
      (rows.get ⟨i, Nat.lt_of_succ_lt h⟩).1 = (rows.get ⟨i + 1, h⟩).1 →
        ((rows.get ⟨i, Nat.lt_of_succ_lt h⟩).2 = (rows.get ⟨i + 1, h⟩).2 →
          (stepIndex rows).get ⟨i, by rw [stepIndex_length]; exact Nat.lt_of_succ_lt h⟩
            = (stepIndex rows).get ⟨i + 1, by rw [stepIndex_length]; exact h⟩) ∧
        ((rows.get ⟨i, Nat.lt_of_succ_lt h⟩).2 ≠ (rows.get ⟨i + 1, h⟩).2 →
          (stepIndex rows).get ⟨i + 1, by rw [stepIndex_length]; exact h⟩
            = (stepIndex rows).get
                ⟨i, by rw [stepIndex_length]; exact Nat.lt_of_succ_lt h⟩ + 1)) ∧
    (∀ c : ℕ, (∃ r ∈ rows, r.1 = c) →
      ∃ (j : ℕ) (hj : j < rows.length),
        (rows.get ⟨j, hj⟩).1 = c ∧
        (stepIndex rows).get ⟨j, by rw [stepIndex_length]; exact hj⟩ = 0) := by
  constructor
  · intro i h hcyc
    have hadj := stepOut0_adjacent rows i h
    have hle := cycGroupMin_le rows i (Nat.lt_of_succ_lt h)
    have hgi := stepIndex_get rows i (Nat.lt_of_succ_lt h)
    have hgi1 := stepIndex_get rows (i + 1) h
    constructor
    · intro hval
      rw [hgi, hgi1, ← hcyc, hadj]
      rw [if_pos hval.symm]
      omega
    · intro hval
      rw [hgi, hgi1, ← hcyc, hadj]
      rw [if_neg (fun hx => hval hx.symm)]
      omega
  · intro c ⟨r, hr, hrc⟩
    -- the group of cycle `c` is nonempty, and its minimum is attained
    obtain ⟨⟨j0, hj0⟩, hrj0⟩ := List.mem_iff_get.mp hr
    have hgroup_ne : (((stepZ rows).filter (fun q => q.1 = c)).map Prod.snd) ≠ [] := by
      intro hnil
      have : (stepOut0 rows).get ⟨j0, by rw [stepOut0_length]; exact hj0⟩
          ∈ ((stepZ rows).filter (fun q => q.1 = c)).map Prod.snd := by
        apply List.mem_map.mpr
        refine ⟨(c, (stepOut0 rows).get ⟨j0, by rw [stepOut0_length]; exact hj0⟩), ?_, rfl⟩
        apply List.mem_filter.mpr
        refine ⟨?_, by simp⟩
        have := stepZ_get rows j0 hj0
        rw [hrj0, hrc] at this
        rw [← this]
        exact List.get_mem _ _ _
      rw [hnil] at this
      cases this
    obtain ⟨p, hpf, hpm⟩ := List.mem_map.mp
      (listMinN_mem _ hgroup_ne)
    obtain ⟨hpz, hpc⟩ := List.mem_filter.mp hpf
    obtain ⟨⟨j, hj⟩, hzj⟩ := List.mem_iff_get.mp hpz
    have hj' : j < rows.length := by rw [stepZ_length] at hj; exact hj
    have hzj' := stepZ_get rows j hj'
    have hzeq : ((rows.get ⟨j, hj'⟩).1,
        (stepOut0 rows).get ⟨j, by rw [stepOut0_length]; exact hj'⟩) = p := by
      rw [← hzj']
      rw [← hzj]
    have hc : (rows.get ⟨j, hj'⟩).1 = c := by
      have := congrArg Prod.fst hzeq
      simp only at this
      rw [this]
      exact of_decide_eq_true hpc
    refine ⟨j, hj', hc, ?_⟩
    rw [stepIndex_get rows j hj', hc]
    have hsnd : (stepOut0 rows).get ⟨j, by rw [stepOut0_length]; exact hj'⟩ = p.2 := by
      have := congrArg Prod.snd hzeq
      simpa using this
    rw [hsnd, hpm]
    exact Nat.sub_self _

/-- Witness for C2 on the table with cycles `[0, 0, 0]` and source values
`[5, 5, 7]`: rows 0 and 1 share a value (equal indices), rows 1 and 2
differ (indices differ by 1), and cycle 0 attains index 0. -/
theorem run_length_index_invariants_witness :
    ((stepIndex [((0 : ℕ), (5 : ℕ)), (0, 5), (0, 7)]).get ⟨0, by decide⟩
      = (stepIndex [((0 : ℕ), (5 : ℕ)), (0, 5), (0, 7)]).get ⟨1, by decide⟩) ∧
    ((stepIndex [((0 : ℕ), (5 : ℕ)), (0, 5), (0, 7)]).get ⟨2, by decide⟩
      = (stepIndex [((0 : ℕ), (5 : ℕ)), (0, 5), (0, 7)]).get ⟨1, by decide⟩ + 1) ∧
    (∃ (j : ℕ) (hj : j < ([((0 : ℕ), (5 : ℕ)), (0, 5), (0, 7)] : List (ℕ × ℕ)).length),
      (([((0 : ℕ), (5 : ℕ)), (0, 5), (0, 7)] : List (ℕ × ℕ)).get ⟨j, hj⟩).1 = 0 ∧
      (stepIndex [((0 : ℕ), (5 : ℕ)), (0, 5), (0, 7)]).get
        ⟨j, by rw [stepIndex_length]; exact hj⟩ = 0) :=
  ⟨((run_length_index_invariants [((0 : ℕ), (5 : ℕ)), (0, 5), (0, 7)]).1 0
      (by decide) (by decide)).1 (by decide),
   ((run_length_index_invariants [((0 : ℕ), (5 : ℕ)), (0, 5), (0, 7)]).1 1
      (by decide) (by decide)).2 (by decide),
   (run_length_index_invariants [((0 : ℕ), (5 : ℕ)), (0, 5), (0, 7)]).2 0
      ⟨(0, 5), by decide, rfl⟩⟩

/-- Counterexample to C2 as stated: in the three-row table with cycles
`[0, 0, 1]` and source values `[5, 7, 7]`, rows 1 and 2 are adjacent with
equal source values yet receive indices 1 and 0 — the per-cycle minimum
subtraction restarts the index at the cycle boundary, violating the
claimed unrestricted adjacency invariant. -/
theorem run_length_index_counterexample :
    stepIndex [((0 : ℕ), (5 : ℕ)), (0, 7), (1, 7)] = [0, 1, 0] ∧
    ([((0 : ℕ), (5 : ℕ)), (0, 7), (1, 7)].get ⟨1, by decide⟩).2
      = ([((0 : ℕ), (5 : ℕ)), (0, 7), (1, 7)].get ⟨2, by decide⟩).2 ∧
    (stepIndex [((0 : ℕ), (5 : ℕ)), (0, 7), (1, 7)]).get ⟨1, by decide⟩
      ≠ (stepIndex [((0 : ℕ), (5 : ℕ)), (0, 7), (1, 7)]).get ⟨2, by decide⟩ := by
  decide

/-! ### Lemmas about `validate_dataframe` -/

/-- If every column of the list other than `c` checks out, and `c` appears
with `required=True` while missing from the table, the sequential check
stops with the error naming `c`. -/
theorem checkColumns_missing_required (df : DataFrame) (c : String)
    (info : ColumnInfo) (l : List (String × ColumnInfo))
    (hmem : (c, info) ∈ l) (hreq : info.required = true)
    (hmiss : df.find? (fun p => p.1 = c) = none)
    (hrest : ∀ p ∈ l, p.1 ≠ c → checkColumn df p.1 p.2 = .ok ()) :
    checkColumns df l = .error (.missingRequired c) := by
  induction l with
  | nil => cases hmem
  | cons hd tl ih =>
    by_cases hname : hd.1 = c
    · -- the head is named `c`: it is missing; it either raises or is optional
      have hchk : checkColumn df hd.1 hd.2
          = if hd.2.required then .error (.missingRequired c)
            else .ok () := by
        rw [checkColumn, hname, hmiss]
      by_cases hr : hd.2.required
      · rw [show checkColumns df (hd :: tl) = do
              checkColumn df hd.1 hd.2
              checkColumns df tl from by cases hd with | mk a b => rfl]
        rw [hchk, if_pos hr]
        rfl
      · -- optional head named `c`; the required entry is further down
        have hmem' : (c, info) ∈ tl := by
          rcases List.mem_cons.mp hmem with heq | h
          · exfalso
            rw [← heq] at hr
            exact hr hreq
          · exact h
        rw [show checkColumns df (hd :: tl) = do
              checkColumn df hd.1 hd.2
              checkColumns df tl from by cases hd with | mk a b => rfl]
        rw [hchk, if_neg hr]
        exact ih hmem' (fun p hp => hrest p (List.mem_cons_of_mem hd hp))
    · have hok : checkColumn df hd.1 hd.2 = .ok () :=
        hrest hd (List.mem_cons_self hd tl) hname
      have hmem' : (c, info) ∈ tl := by
        rcases List.mem_cons.mp hmem with heq | h
        · exact absurd (by rw [← heq]) hname
        · exact h
      rw [show checkColumns df (hd :: tl) = do
            checkColumn df hd.1 hd.2
            checkColumns df tl from by cases hd with | mk a b => rfl]
      rw [hok]
      exact ih hmem' (fun p hp => hrest p (List.mem_cons_of_mem hd hp))

/-- C6: for every schema and table, (a) a table missing a column marked
required fails validation with the error naming that column (whenever the
remaining columns check out); (b) a missing optional column passes its
check silently; (c) with `allow_extra_columns=True` undeclared table
columns are never examined, so a table whose declared columns check out
passes; (d) with `allow_extra_columns=False` any undeclared columns make
validation fail with the error naming all of them. -/
theorem validate_dataframe_spec (s : Schema) (df : DataFrame) :
    (∀ c info, (c, info) ∈ s.columns → info.required = true →
      df.find? (fun p => p.1 = c) = none →
      (∀ p ∈ s.columns, p.1 ≠ c → checkColumn df p.1 p.2 = .ok ()) →
      validate_dataframe s df true = .error (.missingRequired c)) ∧
    (∀ c info, info.required = false → df.find? (fun p => p.1 = c) = none →
      checkColumn df c info = .ok ()) ∧
    (checkColumns df s.columns = .ok () → validate_dataframe s df true = .ok ()) ∧
    (extraColsOf s df ≠ [] →
      validate_dataframe s df false = .error (.extraCols (extraColsOf s df))) := by
  have hval_true : validate_dataframe s df true = checkColumns df s.columns := by
    rw [validate_dataframe]
    rfl
  refine ⟨fun c info hmem hreq hmiss hrest => ?_, fun c info hreq hmiss => ?_,
    fun h => ?_, fun h => ?_⟩
  · rw [hval_true]
    exact checkColumns_missing_required df c info s.columns hmem hreq hmiss hrest
  · rw [checkColumn, hmiss, hreq]
    rfl
  · rw [hval_true, h]
  · rw [validate_dataframe]
    simp only [Bool.not_false, if_pos, ite_not]
    rw [if_neg h]
    rfl

/-- Witness for C6: a schema requiring `test_time` with an optional `temp`
column, exercised on a table missing `test_time`, a table missing `temp`,
and a table carrying an undeclared column `label`. -/
theorem validate_dataframe_spec_witness :
    validate_dataframe
      ⟨[("test_time", ⟨true, .FLOAT, "t", some "s", false⟩),
        ("temp", ⟨false, .FLOAT, "T", some "C", false⟩)], []⟩
      [("temp", ⟨'f', []⟩)] true = .error (.missingRequired "test_time") ∧
    checkColumn [("test_time", ⟨'f', []⟩)] "temp"
      ⟨false, .FLOAT, "T", some "C", false⟩ = .ok () ∧
    validate_dataframe
      ⟨[("test_time", ⟨true, .FLOAT, "t", some "s", false⟩),
        ("temp", ⟨false, .FLOAT, "T", some "C", false⟩)], []⟩
      [("test_time", ⟨'f', []⟩), ("label", ⟨'O', []⟩)] true = .ok () ∧
    validate_dataframe
      ⟨[("test_time", ⟨true, .FLOAT, "t", some "s", false⟩),
        ("temp", ⟨false, .FLOAT, "T", some "C", false⟩)], []⟩
      [("test_time", ⟨'f', []⟩), ("label", ⟨'O', []⟩)] false
      = .error (.extraCols ["label"]) :=
  ⟨(validate_dataframe_spec
      ⟨[("test_time", ⟨true, .FLOAT, "t", some "s", false⟩),
        ("temp", ⟨false, .FLOAT, "T", some "C", false⟩)], []⟩
      [("temp", ⟨'f', []⟩)]).1 "test_time" ⟨true, .FLOAT, "t", some "s", false⟩
      (by decide) rfl (by decide) (by decide),
   (validate_dataframe_spec
      ⟨[("test_time", ⟨true, .FLOAT, "t", some "s", false⟩),
        ("temp", ⟨false, .FLOAT, "T", some "C", false⟩)], []⟩
      [("test_time", ⟨'f', []⟩)]).2.1 "temp" ⟨false, .FLOAT, "T", some "C", false⟩
      rfl (by decide),
   (validate_dataframe_spec
      ⟨[("test_time", ⟨true, .FLOAT, "t", some "s", false⟩),
        ("temp", ⟨false, .FLOAT, "T", some "C", false⟩)], []⟩
      [("test_time", ⟨'f', []⟩), ("label", ⟨'O', []⟩)]).2.2.1 (by decide),
   (validate_dataframe_spec
      ⟨[("test_time", ⟨true, .FLOAT, "t", some "s", false⟩),
        ("temp", ⟨false, .FLOAT, "T", some "C", false⟩)], []⟩
      [("test_time", ⟨'f', []⟩), ("label", ⟨'O', []⟩)]).2.2.2 (by decide)⟩

/-! ### Structure of `start_inds` and the cycle bounds -/

theorem startInds_lt (tbl : List Row) : ∀ x ∈ startInds tbl, x < tbl.length := by
  intro x hx
  have := List.mem_filter.mp hx
  exact List.mem_range.mp this.1

theorem startInds_pairwise (tbl : List Row) :
    (startInds tbl).Pairwise (· < ·) :=
  (List.pairwise_lt_range tbl.length).filter _

theorem startInds_get_lt (tbl : List Row) (k : ℕ) (hk : k < (startInds tbl).length) :
    (startInds tbl).get ⟨k, hk⟩ < tbl.length :=
  startInds_lt tbl _ (List.get_mem _ _ _)

theorem startInds_strict (tbl : List Row) (k : ℕ)
    (hk : k + 1 < (startInds tbl).length) :
    (startInds tbl).get ⟨k, Nat.lt_of_succ_lt hk⟩ < (startInds tbl).get ⟨k + 1, hk⟩ :=
  List.pairwise_iff_get.mp (startInds_pairwise tbl) _ _ (by exact Nat.lt_succ_self k)

/-- Every start index from cycle `k + 1` onward is at least `start_inds[k+1]`. -/
theorem startInds_drop_ge (tbl : List Row) (k : ℕ)
    (hk : k + 1 < (startInds tbl).length) :
    ∀ y ∈ (startInds tbl).drop (k + 1), (startInds tbl).get ⟨k + 1, hk⟩ ≤ y := by
  intro y hy
  rw [List.drop_eq_getElem_cons hk] at hy
  rcases List.mem_cons.mp hy with rfl | hy
  · exact le_refl _
  · have hpw : ((startInds tbl).drop (k + 1)).Pairwise (· < ·) :=
      (startInds_pairwise tbl).drop
    rw [List.drop_eq_getElem_cons hk] at hpw
    exact le_of_lt ((List.pairwise_cons.mp hpw).1 y hy)

theorem cycleBounds_length (s : List ℕ) (fill : ℕ) :
    (cycleBounds s fill).length = s.length := by
  cases s with
  | nil => rfl
  | cons a t => simp [cycleBounds]

theorem cycleBounds_fst (s : List ℕ) (fill : ℕ) :
    (cycleBounds s fill).map Prod.fst = s := by
  apply List.map_fst_zip
  cases s with
  | nil => simp
  | cons a t => simp

theorem cycleBounds_snd (s : List ℕ) (fill : ℕ) (h : s ≠ []) :
    (cycleBounds s fill).map Prod.snd = s.tail.map (· + 1) ++ [fill] := by
  apply List.map_snd_zip
  cases s with
  | nil => exact absurd rfl h
  | cons a t => simp

theorem cycleBounds_getElem? (s : List ℕ) (fill : ℕ) (k : ℕ) (hk : k < s.length) :
    (cycleBounds s fill)[k]?
      = some (s.get ⟨k, hk⟩,
          if h : k + 1 < s.length then s.get ⟨k + 1, h⟩ + 1 else fill) := by
  have hs : s ≠ [] := by
    intro h0
    rw [h0] at hk
    exact absurd hk (by simp)
  have hkz : k < (cycleBounds s fill).length := by rw [cycleBounds_length]; exact hk
  obtain ⟨p, hp⟩ : ∃ p, (cycleBounds s fill)[k]? = some p :=
    ⟨_, List.getElem?_eq_getElem hkz⟩
  have h1 : s[k]? = some p.1 := by
    rw [← cycleBounds_fst s fill, List.getElem?_map, hp]
    rfl
  have h2 : (s.tail.map (· + 1) ++ [fill])[k]? = some p.2 := by
    rw [← cycleBounds_snd s fill hs, List.getElem?_map, hp]
    rfl
  have hp1 : p.1 = s.get ⟨k, hk⟩ := by
    rw [List.getElem?_eq_getElem hk] at h1
    injection h1 with h1
    rw [← h1]
    exact (List.get_eq_getElem s ⟨k, hk⟩).symm
  have hp2 : p.2 = if h : k + 1 < s.length then s.get ⟨k + 1, h⟩ + 1 else fill := by
    by_cases h : k + 1 < s.length
    · have hkt : k < (s.tail.map (· + 1)).length := by
        rw [List.length_map, List.length_tail]
        omega
      rw [List.getElem?_append_left hkt, List.getElem?_map, List.getElem?_tail] at h2
      rw [List.getElem?_eq_getElem h] at h2
      simp only [Option.map_some'] at h2
      injection h2 with h2
      rw [dif_pos h, ← h2]
      rfl
    · have hkt : (s.tail.map (· + 1)).length ≤ k := by
        rw [List.length_map, List.length_tail]
        omega
      rw [List.getElem?_append_right hkt] at h2
      have hzero : k - (s.tail.map (· + 1)).length = 0 := by
        rw [List.length_map, List.length_tail]
        omega
      rw [hzero] at h2
      injection h2 with h2
      rw [dif_neg h, ← h2]
      rfl
  rw [hp, ← hp1, ← hp2]

theorem slice_length {α : Type} (l : List α) (s e : ℕ) :
    (slice l s e).length = min (e - s) (l.length - s) := by
  rw [slice, List.length_take, List.length_drop]

theorem slice_getElem? {α : Type} (l : List α) (s e j : ℕ) (hj : j < e - s) :
    (slice l s e)[j]? = l[s + j]? := by
  rw [slice, List.getElem?_take, if_pos hj, List.getElem?_drop]

theorem trapzAux_length (p : ℚ × ℚ) (rest : List (ℚ × ℚ)) (acc : ℚ) :
    (trapzAux p rest acc).length = rest.length := by
  induction rest generalizing p acc with
  | nil => rfl
  | cons q rest ih => simp [trapzAux, ih]

theorem cumtrapz_length (pts : List (ℚ × ℚ)) :
    (cumtrapz pts).length = pts.length - 1 := by
  cases pts with
  | nil => rfl
  | cons p rest => simp [cumtrapz, trapzAux_length]

theorem cumtrapz0_length (pts : List (ℚ × ℚ)) (h : pts ≠ []) :
    (cumtrapz0 pts).length = pts.length := by
  rw [cumtrapz0, List.length_cons, cumtrapz_length]
  have : pts.length ≠ 0 := fun h0 => h (List.length_eq_zero.mp h0)
  omega

/-! ### The write/overwrite structure of `StateOfCharge.enhance` -/

theorem writeRange_length (arr : List (Option ℚ)) (s : ℕ) (vals : List ℚ) :
    (writeRange arr s vals).length = arr.length := by
  induction arr generalizing s vals with
  | nil => cases vals <;> simp [writeRange]
  | cons a t ih =>
    cases vals with
    | nil => simp [writeRange]
    | cons v vs =>
      cases s with
      | zero => simp [writeRange, ih]
      | succ n => simp [writeRange, ih]

/-- Pointwise description of one write: positions inside the written window
take the new values, all others keep their old contents. -/
theorem writeRange_getElem? (arr : List (Option ℚ)) (s : ℕ) (vals : List ℚ) (r : ℕ) :
    (writeRange arr s vals)[r]?
      = if s ≤ r ∧ r < s + vals.length ∧ r < arr.length then
          (vals[r - s]?).map some
        else
          arr[r]? := by
  induction arr generalizing s vals r with
  | nil =>
    rw [show writeRange [] s vals = [] by cases vals <;> simp [writeRange]]
    rw [if_neg (fun h => by
      have := h.2.2
      simp at this)]
  | cons a t ih =>
    cases vals with
    | nil =>
      rw [show writeRange (a :: t) s [] = a :: t by simp [writeRange]]
      rw [if_neg (fun h => by
        have h1 := h.1
        have h2 := h.2.1
        simp only [List.length_nil] at h2
        omega)]
    | cons v vs =>
      cases s with
      | zero =>
        cases r with
        | zero =>
          rw [show writeRange (a :: t) 0 (v :: vs) = some v :: writeRange t 0 vs
            by simp [writeRange]]
          rw [if_pos (by simp)]
          simp
        | succ m =>
          rw [show writeRange (a :: t) 0 (v :: vs) = some v :: writeRange t 0 vs
            by simp [writeRange]]
          rw [List.getElem?_cons_succ]
          rw [ih 0 vs m]
          refine if_congr ?_ (by simp) (by simp)
          simp only [List.length_cons]
          omega
      | succ n =>
        cases r with
        | zero =>
          rw [show writeRange (a :: t) (n + 1) (v :: vs)
              = a :: writeRange t n (v :: vs) by simp [writeRange]]
          rw [if_neg (fun h => by
            have := h.1
            omega)]
          simp
        | succ m =>
          rw [show writeRange (a :: t) (n + 1) (v :: vs)
              = a :: writeRange t n (v :: vs) by simp [writeRange]]
          rw [List.getElem?_cons_succ]
          rw [ih n (v :: vs) m]
          refine if_congr ?_ ?_ (by simp)
          · simp only [List.length_cons]
            omega
          · rw [Nat.succ_sub_succ]

theorem foldl_writeRange_length (ps : List (ℕ × ℕ)) (g : ℕ × ℕ → List ℚ)
    (arr : List (Option ℚ)) :
    (ps.foldl (fun a p => writeRange a p.1 (g p)) arr).length = arr.length := by
  induction ps generalizing arr with
  | nil => rfl
  | cons p ps ih => rw [List.foldl_cons, ih, writeRange_length]

/-- Writes of later cycles never reach a row before their start index. -/
theorem foldl_writeRange_untouched (ps : List (ℕ × ℕ)) (g : ℕ × ℕ → List ℚ)
    (arr : List (Option ℚ)) (r : ℕ) (h : ∀ p ∈ ps, r < p.1) :
    (ps.foldl (fun a p => writeRange a p.1 (g p)) arr)[r]? = arr[r]? := by
  induction ps generalizing arr with
  | nil => rfl
  | cons p ps ih =>
    rw [List.foldl_cons, ih _ (fun q hq => h q (List.mem_cons_of_mem p hq))]
    rw [writeRange_getElem?]
    rw [if_neg (fun hc => by
      have := h p (List.mem_cons_self p ps)
      omega)]

/-- The final content of row `r` of an `enhanceCol` output column, for `r`
among the rows owned by cycle `k` (from the cycle's first row up to, but
excluding, the next cycle's first row): the value written by pass `k`,
every later pass starting strictly beyond `r`.  In particular the first
row of cycle `k + 1` is *not* described by pass `k` (which also writes it)
but by pass `k + 1`, which overwrites it. -/
theorem enhanceCol_getElem? (tbl : List Row) (f : Row → ℚ) (k : ℕ)
    (hk : k < (startInds tbl).length) (r : ℕ)
    (hr1 : (startInds tbl).get ⟨k, hk⟩ ≤ r)
    (hr2 : r < nextStart tbl k) :
    (enhanceCol tbl f)[r]?
      = ((passCol tbl f k)[r - (startInds tbl).get ⟨k, hk⟩]?).map some := by
  have hsl : (startInds tbl).get ⟨k, hk⟩ < tbl.length := startInds_get_lt tbl k hk
  have hrlen : r < tbl.length := by
    rw [nextStart] at hr2
    by_cases h1 : k + 1 < (startInds tbl).length
    · rw [dif_pos h1] at hr2
      exact lt_trans hr2 (startInds_get_lt tbl (k + 1) h1)
    · rwa [dif_neg h1] at hr2
  have hkB : k < (cycleBounds (startInds tbl) (tbl.length + 1)).length := by
    rw [cycleBounds_length]
    exact hk
  have hBk := cycleBounds_getElem? (startInds tbl) (tbl.length + 1) k hk
  -- split the fold into passes up to `k`, pass `k`, and later passes
  rw [enhanceCol]
  conv_lhs =>
    rw [← List.take_append_drop (k + 1) (cycleBounds (startInds tbl) (tbl.length + 1))]
  rw [List.foldl_append]
  rw [foldl_writeRange_untouched _ _ _ r ?hpost]
  case hpost =>
    intro p hp
    have hp1 : p.1 ∈ ((cycleBounds (startInds tbl) (tbl.length + 1)).map Prod.fst).drop (k + 1) := by
      rw [← List.map_drop]
      exact List.mem_map_of_mem Prod.fst hp
    rw [cycleBounds_fst] at hp1
    by_cases h1 : k + 1 < (startInds tbl).length
    · have hge := startInds_drop_ge tbl k h1 p.1 hp1
      have : r < (startInds tbl).get ⟨k + 1, h1⟩ := by
        rw [nextStart, dif_pos h1] at hr2
        exact hr2
      omega
    · rw [List.drop_eq_nil_of_le (by omega)] at hp1
      cases hp1
  rw [List.take_succ]
  rw [hBk]
  rw [Option.toList_some, List.foldl_append, List.foldl_cons, List.foldl_nil]
  rw [writeRange_getElem?]
  -- the write of pass `k` covers row `r`
  have hlen_init : (((cycleBounds (startInds tbl) (tbl.length + 1)).take k).foldl
      (fun a p => writeRange a p.1 ((cumtrapz0 ((slice tbl p.1 p.2).map
        (fun row => (row.test_time, f row)))).map (· / 3600)))
      (List.replicate tbl.length none)).length = tbl.length := by
    rw [foldl_writeRange_length, List.length_replicate]
  have hvals_len :
      ((cumtrapz0 ((slice tbl ((startInds tbl).get ⟨k, hk⟩)
          (if h : k + 1 < (startInds tbl).length then (startInds tbl).get ⟨k + 1, h⟩ + 1
           else tbl.length + 1)).map (fun row => (row.test_time, f row)))).map
        (· / 3600)).length
      = min ((if h : k + 1 < (startInds tbl).length then (startInds tbl).get ⟨k + 1, h⟩ + 1
              else tbl.length + 1) - (startInds tbl).get ⟨k, hk⟩)
            (tbl.length - (startInds tbl).get ⟨k, hk⟩) := by
    rw [List.length_map, cumtrapz0_length, List.length_map, slice_length]
    intro hnil
    have := congrArg List.length hnil
    rw [List.length_map, slice_length] at this
    by_cases h1 : k + 1 < (startInds tbl).length
    · rw [dif_pos h1] at this
      have hlt := startInds_strict tbl k h1
      have hlt2 := startInds_get_lt tbl (k + 1) h1
      simp only [List.length_nil] at this
      omega
    · rw [dif_neg h1] at this
      simp only [List.length_nil] at this
      omega
  rw [if_pos ?hcov]
  case hcov =>
    refine ⟨hr1, ?_, ?_⟩
    · rw [hvals_len]
      by_cases h1 : k + 1 < (startInds tbl).length
      · rw [dif_pos h1]
        have : r < (startInds tbl).get ⟨k + 1, h1⟩ := by
          rw [nextStart, dif_pos h1] at hr2
          exact hr2
        have hlt2 := startInds_get_lt tbl (k + 1) h1
        omega
      · rw [dif_neg h1]
        omega
    · rw [hlen_init]
      exact hrlen
  -- both sides now read the same pass-`k` value list
  rw [passCol, hBk]
  rfl

theorem start_lt_nextStart (tbl : List Row) (k : ℕ)
    (hk : k < (startInds tbl).length) :
    (startInds tbl).get ⟨k, hk⟩ < nextStart tbl k := by
  rw [nextStart]
  by_cases h1 : k + 1 < (startInds tbl).length
  · rw [dif_pos h1]
    exact startInds_strict tbl k h1
  · rw [dif_neg h1]
    exact startInds_get_lt tbl k hk

/-- The stored value at the first row of any cycle is the pass's
`initial=0` entry: exactly zero. -/
theorem enhanceCol_start_zero (tbl : List Row) (f : Row → ℚ) (k : ℕ)
    (hk : k < (startInds tbl).length) :
    (enhanceCol tbl f)[(startInds tbl).get ⟨k, hk⟩]? = some (some 0) := by
  rw [enhanceCol_getElem? tbl f k hk _ (le_refl _) (start_lt_nextStart tbl k hk)]
  rw [Nat.sub_self]
  simp [passCol, cumtrapz0]

/-- C8: after `StateOfCharge.enhance`, the first row of every cycle holds
`cycled_charge = cycled_energy = CE_charge = 0` exactly — including
cycle-boundary rows, which pass `k` first writes as its end cap and pass
`k + 1` then overwrites with its `initial=0` entry (see
`enhanceCol_getElem?`, which assigns the boundary row to pass `k + 1`). -/
theorem soc_enhance_first_row_zero (tbl : List Row) (ce : ℚ) (k : ℕ)
    (hk : k < (startInds tbl).length) :
    (enhancedCharge tbl)[(startInds tbl).get ⟨k, hk⟩]? = some 0 ∧
    (enhancedEnergy tbl)[(startInds tbl).get ⟨k, hk⟩]? = some 0 ∧
    (enhancedCE ce tbl)[(startInds tbl).get ⟨k, hk⟩]? = some 0 := by
  refine ⟨?_, ?_, ?_⟩
  · rw [enhancedCharge, List.getElem?_map, enhanceCol_start_zero tbl _ k hk]
    rfl
  · rw [enhancedEnergy, List.getElem?_map, enhanceCol_start_zero tbl _ k hk]
    rfl
  · rw [enhancedCE, List.getElem?_map, enhanceCol_start_zero tbl _ k hk]
    rfl

/-- Witness for C8 on the two-cycle table `tblC4`, with efficiency 1/2:
both cycles' first rows (positions 0 and 2) store exact zeros. -/
theorem soc_enhance_first_row_zero_witness :
    (enhancedCharge tblC4)[(startInds tblC4).get ⟨0, by decide⟩]? = some 0 ∧
    (enhancedEnergy tblC4)[(startInds tblC4).get ⟨0, by decide⟩]? = some 0 ∧
    (enhancedCE (1/2) tblC4)[(startInds tblC4).get ⟨0, by decide⟩]? = some 0 :=
  soc_enhance_first_row_zero tblC4 (1/2) 0 (by decide)

/-! ### The summary arithmetic of `CapacityPerCycle._summarize` -/

/-- Closed form of `summarizeCycle` on nonempty arrays, by branch. -/
theorem summarizeCycle_spec (c e : ℚ) (cs es : List ℚ) :
    summarizeCycle (c :: cs) (e :: es)
      = (if listMaxD (c :: cs) < - listMinD (c :: cs) then
          some { energy_charge := ((e :: es).getLast?.getD 0 + - listMinD (e :: es)) / 3600,
                 energy_discharge := - listMinD (e :: es) / 3600,
                 capacity_charge := ((c :: cs).getLast?.getD 0 + - listMinD (c :: cs)) / 3600,
                 capacity_discharge := - listMinD (c :: cs) / 3600,
                 max_cycled_capacity := (listMaxD (c :: cs) + - listMinD (c :: cs)) / 3600 }
         else
          some { energy_charge := listMaxD (e :: es) / 3600,
                 energy_discharge := (listMaxD (e :: es) - (e :: es).getLast?.getD 0) / 3600,
                 capacity_charge := listMaxD (c :: cs) / 3600,
                 capacity_discharge := (listMaxD (c :: cs) - (c :: cs).getLast?.getD 0) / 3600,
                 max_cycled_capacity := (listMaxD (c :: cs) + - listMinD (c :: cs)) / 3600 }) :=
  rfl

/-- C1 (amended): for any cycle whose `capacity_change` array returns to
exactly 0 at its last entry, the summary written by the tail of
`CapacityPerCycle._summarize` satisfies
`capacity_charge = capacity_discharge`, and
`max_cycled_capacity ≤ capacity_charge + capacity_discharge`, with
equality **iff** the maximal charge excursion equals the maximal discharge
excursion (`dSOC.max() = -dSOC.min()`); the claimed unconditional equality
fails whenever the two excursions differ (see the counterexample). -/
theorem zero_net_capacity_relation (cap eng : List ℚ) (s : CycleSummary)
    (hs : summarizeCycle cap eng = some s)
    (hlast : cap.getLast? = some 0) :
    s.capacity_charge = s.capacity_discharge ∧
    s.max_cycled_capacity ≤ s.capacity_charge + s.capacity_discharge ∧
    (s.max_cycled_capacity = s.capacity_charge + s.capacity_discharge ↔
      listMaxD cap = - listMinD cap) := by
  have h3600 : (0 : ℚ) < 3600 := by norm_num
  have h3600' : (3600 : ℚ) ≠ 0 := by norm_num
  cases cap with
  | nil => exact absurd hs (by simp [summarizeCycle])
  | cons c cs =>
  cases eng with
  | nil => exact absurd hs (by simp [summarizeCycle])
  | cons e es =>
  rw [summarizeCycle_spec] at hs
  have hlast0 : (c :: cs).getLast?.getD 0 = 0 := by rw [hlast]; rfl
  by_cases hcase : listMaxD (c :: cs) < - listMinD (c :: cs)
  · rw [if_pos hcase] at hs
    injection hs with hs
    subst hs
    simp only [hlast0]
    refine ⟨by norm_num, ?_, ?_⟩
    · rw [div_add_div_same]
      rw [div_le_div_iff_of_pos_right h3600]
      linarith
    · rw [div_add_div_same]
      constructor
      · intro h
        have h' := congrArg (fun x => x * 3600) h
        simp only [] at h'
        rw [div_mul_cancel₀ _ h3600', div_mul_cancel₀ _ h3600'] at h'
        linarith
      · intro h
        exact absurd h (by linarith)
  · rw [if_neg hcase] at hs
    injection hs with hs
    subst hs
    simp only [hlast0]
    refine ⟨by norm_num, ?_, ?_⟩
    · rw [div_add_div_same]
      rw [div_le_div_iff_of_pos_right h3600]
      have := not_lt.mp hcase
      linarith
    · rw [div_add_div_same]
      constructor
      · intro h
        have h' := congrArg (fun x => x * 3600) h
        simp only [] at h'
        rw [div_mul_cancel₀ _ h3600', div_mul_cancel₀ _ h3600'] at h'
        linarith
      · intro h
        rw [show listMaxD (c :: cs) + - listMinD (c :: cs)
            = listMaxD (c :: cs) + (listMaxD (c :: cs) - 0) from by linarith]

/-- Witness for C1 (amended) on `capacity_change = energy_change = [-1, 0]`
(a discharge followed by recharge): the charge and discharge capacities
agree, and `max_cycled_capacity` is strictly below their sum because the
positive excursion (0) differs from the negative one (1). -/
theorem zero_net_capacity_relation_witness :
    ∃ s, summarizeCycle [-1, 0] [-1, 0] = some s ∧
      (s.capacity_charge = s.capacity_discharge ∧
       s.max_cycled_capacity ≤ s.capacity_charge + s.capacity_discharge ∧
       (s.max_cycled_capacity = s.capacity_charge + s.capacity_discharge ↔
         listMaxD [-1, 0] = - listMinD [-1, 0])) :=
  ⟨_, rfl, zero_net_capacity_relation [-1, 0] [-1, 0] _ rfl (by
    norm_num [List.getLast?])⟩

/-- Counterexample to C1 as stated: on the single-cycle table `tblC1`
(current ramping -2 A → 2 A, zero net charge), `_summarize` writes
`capacity_charge = capacity_discharge = 1/3600` but
`max_cycled_capacity = 1/3600 ≠ 2/3600`. -/
theorem zero_net_capacity_counterexample :
    (cumtrapz (capPts (cycleSubset tblC1 0))).getLast? = some 0 ∧
    summary false none tblC1 0
      = some { energy_charge := 1/3600, energy_discharge := 1/3600,
               capacity_charge := 1/3600, capacity_discharge := 1/3600,
               max_cycled_capacity := 1/3600 } ∧
    (1/3600 : ℚ) ≠ 1/3600 + 1/3600 := by
  refine ⟨?_, ?_, by norm_num⟩
  · norm_num [tblC1, startInds, isStart, cycleBounds, cycleSubset, slice, List.range,
      List.filter, capPts, cumtrapz, trapzAux, List.range.loop]
  · norm_num [summary, tblC1, startInds, isStart, cycleBounds, slice, List.range,
      List.filter, capPts, engPts, cumtrapz, trapzAux, summarizeCycle, listMaxD,
      listMinD, List.range.loop]

/-- On nonempty arrays the summary computation always produces a value
(no branch of lines 97-123 can raise). -/
theorem summarizeCycle_isSome (cap eng : List ℚ) (h1 : cap ≠ []) (h2 : eng ≠ []) :
    (summarizeCycle cap eng).isSome = true := by
  cases cap with
  | nil => exact absurd rfl h1
  | cons c cs =>
  cases eng with
  | nil => exact absurd rfl h2
  | cons e es =>
  rw [summarizeCycle_spec]
  by_cases h : listMaxD (c :: cs) < - listMinD (c :: cs)
  · rw [if_pos h]
    rfl
  · rw [if_neg h]
    rfl

/-- C4 (amended): `_summarize` never raises, and a cycle is skipped (its
summary fields keep their `NaN` initialisation) **iff** its subset — the
cycle's own rows plus the borrowed first row of the following cycle, when
one exists — has fewer than 3 rows.  Equivalently: a non-final cycle is
skipped iff it has at most 1 own row, the final cycle iff it has at most 2
rows; a 2-row cycle followed by another cycle is *processed*, not skipped
(see the counterexample).  All other cycles get summary values. -/
theorem summarize_skip_iff (reuse : Bool) (stored : Option (List ℚ × List ℚ))
    (tbl : List Row) (k : ℕ) (hk : k < (startInds tbl).length)
    (hst : storedWF stored tbl) :
    (summary reuse stored tbl k).isSome = true ↔ 3 ≤ (cycleSubset tbl k).length := by
  have hBk := cycleBounds_getElem? (startInds tbl) tbl.length k hk
  have hsub : cycleSubset tbl k
      = slice tbl ((startInds tbl).get ⟨k, hk⟩)
          (if h : k + 1 < (startInds tbl).length then
            (startInds tbl).get ⟨k + 1, h⟩ + 1
          else tbl.length) := by
    rw [cycleSubset, hBk]
  rw [summary, hBk]
  simp only []
  rw [← hsub]
  by_cases h3 : (cycleSubset tbl k).length < 3
  · rw [if_pos h3]
    simp only [Option.isSome_none, Bool.false_eq_true, false_iff]
    omega
  · rw [if_neg h3]
    have h3' : 3 ≤ (cycleSubset tbl k).length := by omega
    have hlen : (cycleSubset tbl k).length
        = min ((if h : k + 1 < (startInds tbl).length then
              (startInds tbl).get ⟨k + 1, h⟩ + 1
            else tbl.length) - (startInds tbl).get ⟨k, hk⟩)
            (tbl.length - (startInds tbl).get ⟨k, hk⟩) := by
      rw [hsub, slice_length]
    refine (iff_true_right h3').mpr ?_
    match reuse, stored with
    | true, some (ch, eg) =>
      apply summarizeCycle_isSome
      · intro hnil
        have := congrArg List.length hnil
        rw [List.length_map, slice_length, hst.1] at this
        simp only [List.length_nil] at this
        omega
      · intro hnil
        have := congrArg List.length hnil
        rw [List.length_map, slice_length, hst.2] at this
        simp only [List.length_nil] at this
        omega
    | false, _ =>
      apply summarizeCycle_isSome
      · intro hnil
        have := congrArg List.length hnil
        rw [cumtrapz_length, capPts, List.length_map] at this
        simp only [List.length_nil] at this
        omega
      · intro hnil
        have := congrArg List.length hnil
        rw [cumtrapz_length, engPts, List.length_map] at this
        simp only [List.length_nil] at this
        omega
    | true, none =>
      apply summarizeCycle_isSome
      · intro hnil
        have := congrArg List.length hnil
        rw [cumtrapz_length, capPts, List.length_map] at this
        simp only [List.length_nil] at this
        omega
      · intro hnil
        have := congrArg List.length hnil
        rw [cumtrapz_length, engPts, List.length_map] at this
        simp only [List.length_nil] at this
        omega

/-- Witness for C4 (amended) on `tblC4`: cycle 0 (two own rows plus the
end cap: subset of 3 rows) is processed. -/
theorem summarize_skip_iff_witness :
    (summary false none tblC4 0).isSome = true ↔ 3 ≤ (cycleSubset tblC4 0).length :=
  summarize_skip_iff false none tblC4 0 (by decide) trivial

/-- Counterexample to C4 as stated: in `tblC4`, cycle 0 has only 2 rows of
its own, yet — because its subset borrows the first row of cycle 1 and so
reaches 3 rows — `_summarize` does **not** skip it and writes real (non-NaN)
summary values for it. -/
theorem summarize_skip_counterexample :
    (tblC4.filter (fun r => r.cycle_number = 0)).length = 2 ∧
    (summary false none tblC4 0).isSome = true := by
  refine ⟨by decide, ?_⟩
  norm_num [summary, tblC4, startInds, isStart, cycleBounds, slice, List.range,
    List.filter, capPts, engPts, cumtrapz, trapzAux, summarizeCycle, listMaxD,
    listMinD, List.range.loop]

theorem foldl_max_eq (t : List ℚ) (a : ℚ) (h : t ≠ []) :
    t.foldl max a = max a (listMaxD t) := by
  induction t generalizing a with
  | nil => exact absurd rfl h
  | cons x xs ih =>
    cases xs with
    | nil => rfl
    | cons y ys =>
      rw [List.foldl_cons, ih (max a x) (by simp)]
      rw [show listMaxD (x :: y :: ys) = (y :: ys).foldl max x from rfl]
      rw [ih x (by simp)]
      rw [max_assoc]

theorem foldl_min_eq (t : List ℚ) (a : ℚ) (h : t ≠ []) :
    t.foldl min a = min a (listMinD t) := by
  induction t generalizing a with
  | nil => exact absurd rfl h
  | cons x xs ih =>
    cases xs with
    | nil => rfl
    | cons y ys =>
      rw [List.foldl_cons, ih (min a x) (by simp)]
      rw [show listMinD (x :: y :: ys) = (y :: ys).foldl min x from rfl]
      rw [ih x (by simp)]
      rw [min_assoc]

/-- A leading exact zero does not change the maximum of an array whose
maximum is nonnegative. -/
theorem listMaxD_cons_zero (l : List ℚ) (h : l ≠ []) (h0 : 0 ≤ listMaxD l) :
    listMaxD (0 :: l) = listMaxD l := by
  show l.foldl max 0 = listMaxD l
  rw [foldl_max_eq l 0 h]
  exact max_eq_right h0

/-- A leading exact zero does not change the minimum of an array whose
minimum is nonpositive. -/
theorem listMinD_cons_zero (l : List ℚ) (h : l ≠ []) (h0 : listMinD l ≤ 0) :
    listMinD (0 :: l) = listMinD l := by
  show l.foldl min 0 = listMinD l
  rw [foldl_min_eq l 0 h]
  exact min_eq_right h0

/-- Prepending the `initial=0` entry to both arrays leaves every summary
statistic — max, min, last — unchanged when each array's range spans 0,
hence the whole cycle summary. -/
theorem summarizeCycle_cons_zero (cap eng : List ℚ) (hc : cap ≠ []) (he : eng ≠ [])
    (h1 : 0 ≤ listMaxD cap) (h2 : listMinD cap ≤ 0)
    (h3 : 0 ≤ listMaxD eng) (h4 : listMinD eng ≤ 0) :
    summarizeCycle (0 :: cap) (0 :: eng) = summarizeCycle cap eng := by
  cases cap with
  | nil => exact absurd rfl hc
  | cons c cs =>
  cases eng with
  | nil => exact absurd rfl he
  | cons e es =>
  rw [show summarizeCycle (0 :: c :: cs) (0 :: e :: es)
      = summarizeCycle ((0 : ℚ) :: c :: cs) ((0 : ℚ) :: e :: es) from rfl]
  rw [summarizeCycle_spec 0 0 (c :: cs) (e :: es), summarizeCycle_spec c e cs es]
  rw [listMaxD_cons_zero (c :: cs) (by simp) h1]
  rw [listMinD_cons_zero (c :: cs) (by simp) h2]
  rw [listMaxD_cons_zero (e :: es) (by simp) h3]
  rw [listMinD_cons_zero (e :: es) (by simp) h4]
  rw [List.getLast?_cons_cons, List.getLast?_cons_cons]

theorem enhanceCol_length (tbl : List Row) (f : Row → ℚ) :
    (enhanceCol tbl f).length = tbl.length := by
  rw [enhanceCol, foldl_writeRange_length, List.length_replicate]

/-- The subset integrated by pass `k` of `enhance` (fill value `len + 1`)
consists of exactly the same rows as the subset summarised by
`_summarize` (fill value `len`): for a non-final cycle both end at the
next cycle's first row inclusively, for the final cycle `iloc` clamps
both stops to the table end. -/
theorem passCol_eq (tbl : List Row) (f : Row → ℚ) (k : ℕ)
    (hk : k < (startInds tbl).length) :
    passCol tbl f k
      = (cumtrapz0 ((cycleSubset tbl k).map (fun r => (r.test_time, f r)))).map
          (· / 3600) := by
  rw [passCol, cycleBounds_getElem? (startInds tbl) (tbl.length + 1) k hk]
  simp only [Option.getD_some]
  rw [cycleSubset, cycleBounds_getElem? (startInds tbl) tbl.length k hk]
  simp only []
  by_cases h1 : k + 1 < (startInds tbl).length
  · rw [dif_pos h1, dif_pos h1]
  · rw [dif_neg h1, dif_neg h1]
    rw [show slice tbl ((startInds tbl).get ⟨k, hk⟩) (tbl.length + 1)
        = slice tbl ((startInds tbl).get ⟨k, hk⟩) tbl.length from ?_]
    rw [slice, slice]
    rw [List.take_of_length_le (by rw [List.length_drop]; omega)]
    rw [List.take_of_length_le (by rw [List.length_drop])]

/-- The stored column at row `s_k + j`, for rows owned by cycle `k`. -/
theorem enhanceCol_owned (tbl : List Row) (f : Row → ℚ) (k : ℕ)
    (hk : k < (startInds tbl).length) (j : ℕ)
    (hj : (startInds tbl).get ⟨k, hk⟩ + j < nextStart tbl k) :
    (enhanceCol tbl f)[(startInds tbl).get ⟨k, hk⟩ + j]?
      = (((cumtrapz0 ((cycleSubset tbl k).map (fun r => (r.test_time, f r)))).map
          (· / 3600))[j]?).map some := by
  rw [enhanceCol_getElem? tbl f k hk _ (Nat.le_add_right _ _) hj]
  rw [passCol_eq tbl f k hk, Nat.add_sub_cancel_left]

/-- The reuse-path array of cycle `k`: slicing the stored column over the
summarised subset and rescaling by 3600 reproduces the `initial=0`
recomputed integral array — provided that, when a later cycle exists (so
that the end-cap row was overwritten with the next cycle's 0), the
integral is exactly 0 at the end cap. -/
theorem enhanced_slice (tbl : List Row) (f : Row → ℚ) (k : ℕ)
    (hk : k < (startInds tbl).length)
    (h3 : 3 ≤ (cycleSubset tbl k).length)
    (hlast : k + 1 < (startInds tbl).length →
      (cumtrapz ((cycleSubset tbl k).map (fun r => (r.test_time, f r)))).getLast?
        = some 0) :
    (slice ((enhanceCol tbl f).map (fun o => o.getD 0))
        ((startInds tbl).get ⟨k, hk⟩)
        (if h : k + 1 < (startInds tbl).length then
          (startInds tbl).get ⟨k + 1, h⟩ + 1 else tbl.length)).map (· * 3600)
      = 0 :: cumtrapz ((cycleSubset tbl k).map (fun r => (r.test_time, f r))) := by
  have h3600' : (3600 : ℚ) ≠ 0 := by norm_num
  have hsl : (startInds tbl).get ⟨k, hk⟩ < tbl.length := startInds_get_lt tbl k hk
  have hsub : cycleSubset tbl k
      = slice tbl ((startInds tbl).get ⟨k, hk⟩)
          (if h : k + 1 < (startInds tbl).length then
            (startInds tbl).get ⟨k + 1, h⟩ + 1 else tbl.length) := by
    rw [cycleSubset, cycleBounds_getElem? (startInds tbl) tbl.length k hk]
  have hptsne : (cycleSubset tbl k).map (fun r => (r.test_time, f r)) ≠ [] := by
    intro h0
    have := congrArg List.length h0
    rw [List.length_map] at this
    simp only [List.length_nil] at this
    omega
  have hc0len : (cumtrapz0 ((cycleSubset tbl k).map (fun r => (r.test_time, f r)))).length
      = (cycleSubset tbl k).length := by
    rw [cumtrapz0_length _ hptsne, List.length_map]
  have hmlen : (cycleSubset tbl k).length
      = min ((if h : k + 1 < (startInds tbl).length then
            (startInds tbl).get ⟨k + 1, h⟩ + 1 else tbl.length)
          - (startInds tbl).get ⟨k, hk⟩)
          (tbl.length - (startInds tbl).get ⟨k, hk⟩) := by
    rw [hsub, slice_length]
  have hXlen : (((enhanceCol tbl f).map (fun o => o.getD 0)).length) = tbl.length := by
    rw [List.length_map, enhanceCol_length]
  apply List.ext_getElem?
  intro j
  rw [List.getElem?_map]
  by_cases hjm : j < (cycleSubset tbl k).length
  · have hslice : (slice ((enhanceCol tbl f).map (fun o => o.getD 0))
        ((startInds tbl).get ⟨k, hk⟩)
        (if h : k + 1 < (startInds tbl).length then
          (startInds tbl).get ⟨k + 1, h⟩ + 1 else tbl.length))[j]?
        = ((enhanceCol tbl f).map (fun o => o.getD 0))[(startInds tbl).get ⟨k, hk⟩ + j]? := by
      apply slice_getElem?
      omega
    rw [hslice, List.getElem?_map]
    by_cases howned : (startInds tbl).get ⟨k, hk⟩ + j < nextStart tbl k
    · -- a row owned by cycle `k`: pass `k`'s value, divided then rescaled
      rw [enhanceCol_owned tbl f k hk j howned]
      have hj0 : j < (cumtrapz0 ((cycleSubset tbl k).map
          (fun r => (r.test_time, f r)))).length := by omega
      obtain ⟨w, hw⟩ : ∃ w, (cumtrapz0 ((cycleSubset tbl k).map
          (fun r => (r.test_time, f r))))[j]? = some w :=
        ⟨_, List.getElem?_eq_getElem hj0⟩
      rw [List.getElem?_map, hw]
      rw [show (0 : ℚ) :: cumtrapz ((cycleSubset tbl k).map (fun r => (r.test_time, f r)))
          = cumtrapz0 ((cycleSubset tbl k).map (fun r => (r.test_time, f r))) from rfl]
      rw [hw]
      simp only [Option.map_some', Option.getD_some]
      rw [div_mul_cancel₀ _ h3600']
    · -- the end-cap row: overwritten with the next cycle's initial 0
      have h1 : k + 1 < (startInds tbl).length := by
        by_contra h1
        rw [nextStart, dif_neg h1] at howned
        omega
      have hnext : (startInds tbl).get ⟨k, hk⟩ + j
          = (startInds tbl).get ⟨k + 1, h1⟩ := by
        rw [nextStart, dif_pos h1] at howned
        have hstrict := startInds_strict tbl k h1
        have hn1 : (startInds tbl).get ⟨k + 1, h1⟩ < tbl.length :=
          startInds_get_lt tbl (k + 1) h1
        rw [hmlen, dif_pos h1] at hjm
        omega
      rw [hnext, enhanceCol_start_zero tbl f (k + 1) h1]
      have hjlast : j = (cycleSubset tbl k).length - 1 := by
        rw [nextStart, dif_pos h1] at howned
        have hstrict := startInds_strict tbl k h1
        have hn1 : (startInds tbl).get ⟨k + 1, h1⟩ < tbl.length :=
          startInds_get_lt tbl (k + 1) h1
        rw [hmlen, dif_pos h1] at hjm ⊢
        omega
      have hclen : (cumtrapz ((cycleSubset tbl k).map
          (fun r => (r.test_time, f r)))).length = (cycleSubset tbl k).length - 1 := by
        rw [cumtrapz_length, List.length_map]
      rw [show ((0 : ℚ) :: cumtrapz ((cycleSubset tbl k).map
          (fun r => (r.test_time, f r))))[j]?
          = (cumtrapz ((cycleSubset tbl k).map (fun r => (r.test_time, f r))))[j - 1]?
          from ?_]
      · rw [show j - 1 = (cumtrapz ((cycleSubset tbl k).map
            (fun r => (r.test_time, f r)))).length - 1 from by omega]
        rw [← List.getLast?_eq_getElem?, hlast h1]
        simp
      · rcases Nat.exists_eq_succ_of_ne_zero (show j ≠ 0 from by omega) with ⟨i, rfl⟩
        rw [List.getElem?_cons_succ, Nat.succ_sub_one]
  · -- beyond the subset: both sides are exhausted
    rw [List.getElem?_eq_none, List.getElem?_eq_none]
    · rfl
    · rw [List.length_cons, cumtrapz_length, List.length_map]
      omega
    · rw [slice_length, hXlen]
      omega

/-- C3 (amended): after `StateOfCharge.enhance`, the reuse fast path and
the direct recomputation produce identical summary values for a cycle
provided the cycle's recomputed integral arrays (charge and energy) span 0
and — when a later cycle follows, because `enhance` overwrites the shared
boundary row with the next cycle's `initial=0` — return to exactly 0 at
the end-cap row (`reuseSafe`).  Without those conditions the stored
array's leading 0 and overwritten end cap change the max/min/last
statistics and the two paths genuinely differ (see the counterexample). -/
theorem reuse_integrals_agreement (tbl : List Row) (k : ℕ)
    (hk : k < (startInds tbl).length)
    (h3 : 3 ≤ (cycleSubset tbl k).length)
    (hcap : reuseSafe tbl k (cumtrapz (capPts (cycleSubset tbl k))))
    (heng : reuseSafe tbl k (cumtrapz (engPts (cycleSubset tbl k)))) :
    summary true (some (enhancedCharge tbl, enhancedEnergy tbl)) tbl k
      = summary false (some (enhancedCharge tbl, enhancedEnergy tbl)) tbl k := by
  have hBk := cycleBounds_getElem? (startInds tbl) tbl.length k hk
  have hsub : cycleSubset tbl k
      = slice tbl ((startInds tbl).get ⟨k, hk⟩)
          (if h : k + 1 < (startInds tbl).length then
            (startInds tbl).get ⟨k + 1, h⟩ + 1 else tbl.length) := by
    rw [cycleSubset, hBk]
  have hcap_slice := enhanced_slice tbl (fun r => r.current) k hk h3 ?caplast
  case caplast =>
    intro h1
    have := hcap.2.2 h1
    rw [capPts] at this
    exact this
  have heng_slice := enhanced_slice tbl (fun r => r.current * r.voltage) k hk h3 ?englast
  case englast =>
    intro h1
    have := heng.2.2 h1
    rw [engPts] at this
    exact this
  rw [show ((enhanceCol tbl (fun r => r.current)).map (fun o => o.getD 0))
      = enhancedCharge tbl from rfl] at hcap_slice
  rw [show ((cycleSubset tbl k).map (fun r => (r.test_time, r.current)))
      = capPts (cycleSubset tbl k) from rfl] at hcap_slice
  rw [show ((enhanceCol tbl (fun r => r.current * r.voltage)).map (fun o => o.getD 0))
      = enhancedEnergy tbl from rfl] at heng_slice
  rw [show ((cycleSubset tbl k).map (fun r => (r.test_time, r.current * r.voltage)))
      = engPts (cycleSubset tbl k) from rfl] at heng_slice
  rw [summary, summary, hBk]
  simp only []
  rw [← hsub, if_neg (not_lt.mpr h3)]
  rw [hcap_slice, heng_slice, if_neg (not_lt.mpr h3)]
  apply summarizeCycle_cons_zero
  · intro h0
    have := congrArg List.length h0
    rw [cumtrapz_length, capPts, List.length_map] at this
    simp only [List.length_nil] at this
    omega
  · intro h0
    have := congrArg List.length h0
    rw [cumtrapz_length, engPts, List.length_map] at this
    simp only [List.length_nil] at this
    omega
  · exact hcap.1
  · exact hcap.2.1
  · exact heng.1
  · exact heng.2.1

/-- Witness for C3 (amended) on `tblC3w`, whose cycle 0 integrals return
to 0 at the end cap: the reuse and recompute paths agree exactly. -/
theorem reuse_integrals_agreement_witness :
    summary true (some (enhancedCharge tblC3w, enhancedEnergy tblC3w)) tblC3w 0
      = summary false (some (enhancedCharge tblC3w, enhancedEnergy tblC3w)) tblC3w 0 :=
  reuse_integrals_agreement tblC3w 0 (by decide)
    (by
      norm_num [cycleSubset, tblC3w, startInds, isStart, cycleBounds, slice,
        List.range, List.filter, List.range.loop])
    (by
      refine ⟨?_, ?_, fun _ => ?_⟩ <;>
        norm_num [reuseSafe, cycleSubset, tblC3w, startInds, isStart, cycleBounds,
          slice, List.range, List.filter, List.range.loop, capPts, cumtrapz,
          trapzAux, listMaxD, listMinD])
    (by
      refine ⟨?_, ?_, fun _ => ?_⟩ <;>
        norm_num [reuseSafe, cycleSubset, tblC3w, startInds, isStart, cycleBounds,
          slice, List.range, List.filter, List.range.loop, engPts, cumtrapz,
          trapzAux, listMaxD, listMinD])

/-- Counterexample to C3 as stated: on `tblC3` (cycle 0 charges throughout,
so its integral does not return to 0 at the end cap), running
`StateOfCharge.enhance` first and then `CapacityPerCycle` with
`reuse_integrals=True` gives different capacity and energy values for
cycle 0 than `reuse_integrals=False`: the stored end-cap row was
overwritten with cycle 1's `initial=0`, and the stored array carries a
leading 0, so the max/min/last statistics differ. -/
theorem reuse_integrals_counterexample :
    summary true (some (enhancedCharge tblC3, enhancedEnergy tblC3)) tblC3 0
      ≠ summary false (some (enhancedCharge tblC3, enhancedEnergy tblC3)) tblC3 0 := by
  norm_num [summary, tblC3, startInds, isStart, cycleBounds, slice, List.range,
    List.filter, capPts, engPts, cumtrapz, trapzAux, summarizeCycle, listMaxD,
    listMinD, List.range.loop, enhancedCharge, enhancedEnergy, enhanceCol,
    writeRange, cumtrapz0, CycleSummary.mk.injEq]

end BattDat
